import Mathlib

/-!
Verification of the oscpython repository (OSC 1.1 wire protocol codec,
address model / pattern matcher, and address-space node tree).

The development shallowly embeds the Python sources:

* `src/oscpython/common.py`    : padding helper, OSC string unpacking,
  `TimeTag`, `ColorRGBA`;
* `src/oscpython/arguments.py` : the typed argument codec (pack / parse for
  each OSC type tag) and argument-class inference;
* `src/oscpython/messages.py`  : `Message.build_packet` / `Message.parse`,
  `Bundle.build_packet` / `Bundle.parse`, `Bundle.add_packet`;
* `src/oscpython/address.py`   : `Address.pattern_to_parts` /
  `Address.parts_to_pattern`, `Address.is_concrete`, `AddressPart.match`
  (including the glob-to-regex translation `compile_re`), `Address.match`,
  and the `AddressNode` tree with its memoised `address` attribute.

Modelling conventions:

* a Python `bytes` object is a `List Nat` whose members are below 256;
* machine integers are `Int` / `Nat` with explicit twos-complement reduction
  (no fixed-width types);
* IEEE-754 float arguments are represented by their 32- or 64-bit wire word
  (`struct.pack` / `struct.unpack` move the word unchanged, so approximate
  float comparison of the spec corresponds to equality of wire words here);
* fallible operations (`struct.unpack` on short input, `bytes.index` misses,
  raised exceptions) return `Option` / `Except`;
* Python `str.split` / `str.replace` / `str.lstrip` and friends are
  re-implemented on `List Char`.
-/

namespace Oscpython

/-- A single byte of a Python `bytes` object (meaningful values are 0..255). -/
abbrev Byte := Nat

/-! ## Big-endian byte packing (the `struct` module with format `>`) -/

/-- Big-endian encoding of `v` into `k` bytes (`struct.pack` of an unsigned
big-endian integer format such as `>I` or `>Q`). -/

def beBytes : Nat → Nat → List Byte
  | 0, _ => []
  | k + 1, v => (v / 2 ^ (8 * k)) % 256 :: beBytes k v

/-- Big-endian decoding of a byte list into a natural number
(`struct.unpack` of an unsigned big-endian integer format). -/

def beVal : List Byte → Nat
  | [] => 0
  | b :: rest => b * 2 ^ (8 * rest.length) + beVal rest

/-- Twos-complement big-endian encoding of a signed integer into `k` bytes
(`struct.pack` with `>i` / `>q`). -/

def sbytes (k : Nat) (v : Int) : List Byte :=
  beBytes k (v % (2 ^ (8 * k) : Int)).toNat

/-- Signed big-endian decoding of `k`-byte data (`struct.unpack` with
`>i` / `>q`). -/

def sdecode (k : Nat) (l : List Byte) : Int :=
  if beVal l < 2 ^ (8 * k - 1) then (beVal l : Int) else (beVal l : Int) - 2 ^ (8 * k)

def get_padded_size (n : Nat) (add_stop_byte : Bool) : Nat :=
  if n % 4 = 0 then (if add_stop_byte then n + 4 else n) else (n / 4 + 1) * 4

/-- Index of the first zero byte of a list (helper for `bytes.index`). -/
def findZeroIdx : List Byte → Option Nat
  | [] => none
  | b :: rest => if b = 0 then some 0 else (findZeroIdx rest).map (· + 1)

/-- `common.unpack_str_from_bytes`: locate the terminating NUL starting the
search at index 1 (that is what `b.index(b"\x00", 1)` does), cut the string
there and drop its padded size.  A missing NUL raises in Python, hence
`Option` here.  The decoded text is kept as its UTF-8 bytes. -/

def unpack_str_from_bytes (b : List Byte) : Option (List Byte × List Byte) :=
  match b with
  | [] => none
  | _ :: rest =>
    match findZeroIdx rest with
    | none => none
    | some i => some (b.take (i + 1), b.drop (get_padded_size (i + 1) true))

def osc_string (s : List Byte) : List Byte :=
  s ++ List.replicate (get_padded_size s.length true - s.length) 0

/-! ## Primitive value types (`common.TimeTag`, `common.ColorRGBA`,
the MIDI message) -/

/-- `common.TimeTag`: two 32-bit integers in NTP format. -/
structure TimeTag where
  seconds : Nat
  fraction : Nat
deriving DecidableEq, Repr

/-- `TimeTag.to_uint64`: `(seconds << 32) + (fraction & 0xFFFFFFFF)`. -/
def TimeTag.to_uint64 (t : TimeTag) : Nat :=
  t.seconds * 2 ^ 32 + t.fraction % 2 ^ 32

/-- `TimeTag.from_uint64`: `seconds = value >> 32`, `fraction = value & 0xFFFFFFFF`. -/
def TimeTag.from_uint64 (v : Nat) : TimeTag :=
  ⟨v / 2 ^ 32, v % 2 ^ 32⟩

/-- `common.ColorRGBA`: a 32-bit RGBA color with 8 bits per component. -/
structure ColorRGBA where
  r : Nat
  g : Nat
  b : Nat
  a : Nat
deriving DecidableEq, Repr

/-- `ColorRGBA.to_uint64`: `(r << 24) + (g << 16) + (b << 8) + a`. -/
def ColorRGBA.to_uint64 (c : ColorRGBA) : Nat :=
  c.r * 2 ^ 24 + c.g * 2 ^ 16 + c.b * 2 ^ 8 + c.a

/-- `ColorRGBA.from_uint64` applied to the (possibly signed) integer produced
by `struct.unpack(">q", ...)`: each component is `(value >> shift) & 0xff`
with floor shifts, exactly as Python evaluates those operators on `int`. -/

def ColorRGBA.from_uint64 (v : Int) : ColorRGBA :=
  ⟨(v.fdiv (2 ^ 24) % 256).toNat, (v.fdiv (2 ^ 16) % 256).toNat,
   (v.fdiv (2 ^ 8) % 256).toNat, (v % 256).toNat⟩

/-- Modelled from the spec: the `MidiMessage` value type is referenced by
`arguments.MidiArgument` (`py_type`, `as_tuple`, `from_iterable`) but its
class definition is not present under `src/`; the spec describes it as the
four bytes `(port, status, data1, data2)`. -/

structure MidiMessage where
  port : Nat
  status : Nat
  data1 : Nat
  data2 : Nat
deriving DecidableEq, Repr

/-! ## The argument codec (`arguments.py`)

One constructor per concrete `Argument` subclass.  Values are carried the way
the wire moves them: strings and blobs as byte lists, floats as their IEEE

wire words, a char as its single byte. -/

inductive Argument where
  | int32 (v : Int)
  | float32 (w : Nat)
  | string (s : List Byte)
  | blob (s : List Byte)
  | int64 (v : Int)
  | timetag (t : TimeTag)
  | float64 (w : Nat)
  | char (c : Byte)
  | rgba (c : ColorRGBA)
  | midi (m : MidiMessage)
  | true
  | false
  | nil
  | infinitum
deriving DecidableEq, Repr

/-- The OSC type tag of each argument class, as the byte of its ASCII
character (`i f s b h t d c r m T F N I`). -/

def Argument.tag : Argument → Byte
  | .int32 _ => 105    -- i
  | .float32 _ => 102  -- f
  | .string _ => 115   -- s
  | .blob _ => 98      -- b
  | .int64 _ => 104    -- h
  | .timetag _ => 116  -- t
  | .float64 _ => 100  -- d
  | .char _ => 99      -- c
  | .rgba _ => 114     -- r
  | .midi _ => 109     -- m
  | .true => 84        -- T
  | .false => 70       -- F
  | .nil => 78         -- N
  | .infinitum => 73   -- I

/-- The payload bytes each argument contributes to a built packet: the
`struct.pack` result of `get_struct_fmt` and `get_pack_value` for the class.
Classes whose `get_pack_value` returns `None` (an empty string, and the
`True` / `False` / `Nil` / `Infinitum` arguments) contribute no bytes. -/

def Argument.pack : Argument → List Byte
  | .int32 v => sbytes 4 v
  | .float32 w => beBytes 4 w
  | .string s => if s = [] then [] else osc_string s
  | .blob s => sbytes 4 (s.length : Int) ++ s
      ++ List.replicate (get_padded_size (s.length + 4) Bool.false - 4 - s.length) 0
  | .int64 v => sbytes 8 v
  | .timetag t => beBytes 8 t.to_uint64
  | .float64 w => beBytes 8 w
  | .char c => [c, 0, 0, 0]
  | .rgba c => sbytes 8 (c.to_uint64 : Int)
  | .midi m => [m.port, m.status, m.data1, m.data2]
  | .true => []
  | .false => []
  | .nil => []
  | .infinitum => []

/-- `Argument.parse` dispatched by type tag (`ARGUMENTS_BY_TAG[tag].parse`):
reads exactly the bytes of the argument and returns the remainder.  `none`
models the exceptions raised on short input, a malformed blob length, or an
unknown tag. -/

def Argument.parseTag (tag : Byte) (data : List Byte) : Option (Argument × List Byte) :=
  match tag with
  | 105 =>
    if 4 ≤ data.length then some (.int32 (sdecode 4 (data.take 4)), data.drop 4) else none
  | 102 =>
    if 4 ≤ data.length then some (.float32 (beVal (data.take 4)), data.drop 4) else none
  | 115 =>
    (unpack_str_from_bytes data).map fun p => (.string p.1, p.2)
  | 98 =>
    if 4 ≤ data.length then
      if sdecode 4 (data.take 4) < 0 then none
      else
        if data.length < (sdecode 4 (data.take 4)).toNat + 4 then none
        else some (.blob ((data.drop 4).take (sdecode 4 (data.take 4)).toNat),
          data.drop (get_padded_size ((sdecode 4 (data.take 4)).toNat + 4) Bool.false))
    else none
  | 104 =>
    if 8 ≤ data.length then some (.int64 (sdecode 8 (data.take 8)), data.drop 8) else none
  | 116 =>
    if 8 ≤ data.length then
      some (.timetag (TimeTag.from_uint64 (beVal (data.take 8))), data.drop 8)
    else none
  | 100 =>
    if 8 ≤ data.length then some (.float64 (beVal (data.take 8)), data.drop 8) else none
  | 99 =>
    match data with
    | c :: _ :: _ :: _ :: rest => some (.char c, rest)
    | _ => none
  | 114 =>
    if 8 ≤ data.length then
      some (.rgba (ColorRGBA.from_uint64 (sdecode 8 (data.take 8))), data.drop 8)
    else none
  | 109 =>
    match data with
    | p :: s :: d1 :: d2 :: rest => some (.midi ⟨p, s, d1, d2⟩, rest)
    | _ => none
  | 84 => some (.true, data)
  | 70 => some (.false, data)
  | 78 => some (.nil, data)
  | 73 => some (.infinitum, data)
  | _ => none

/-- Well-formedness of an argument as used by the round-trip property P1 of
the spec: the value ranges enforced by `validate_value` and `struct.pack`
(no integer overflow, byte-sized components, a 64-bit time tag), plus the
restriction of the claim to the tag set `{i,f,s,b,h,t,d,r,T,F,N,I}` (no
`c` / `m`), plus, for strings, being non-empty and NUL-free. -/

def Argument.wf : Argument → Bool
  | .int32 v => decide (-(2 ^ 31) ≤ v) && decide (v ≤ 2 ^ 31 - 1)
  | .float32 w => decide (w < 2 ^ 32)
  | .string s => !(s.isEmpty) && s.all (fun x => !(x == 0) && decide (x < 256))
  | .blob s => decide (s.length ≤ 2 ^ 31 - 1) && s.all (fun x => decide (x < 256))
  | .int64 v => decide (-(2 ^ 63) ≤ v) && decide (v ≤ 2 ^ 63 - 1)
  | .timetag t => decide (t.seconds < 2 ^ 32) && decide (t.fraction < 2 ^ 32)
  | .float64 w => decide (w < 2 ^ 64)
  | .char _ => Bool.false
  | .rgba c => decide (c.r < 256) && decide (c.g < 256) && decide (c.b < 256)
      && decide (c.a < 256)
  | .midi _ => Bool.false
  | .true => Bool.true
  | .false => Bool.true
  | .nil => Bool.true
  | .infinitum => Bool.true

/-! ## Packets (`messages.py`) -/

/-- `bytes.startswith` with a single-byte needle. -/
def startsWithByte (b : Byte) (l : List Byte) : Bool :=
  match l with
  | [] => Bool.false
  | x :: _ => x == b

/-- The mutable parent bookkeeping of `Packet`: `parent_bundle` (modelled as
the flag that the reference was set to the enclosing bundle, since a value
embedding has no object identity) and `parent_index`.  Freshly created
packets carry `(false, none)` like the Python field defaults. -/
structure PacketMeta where
  parent_attached : Bool
  parent_index : Option Nat
deriving DecidableEq, Repr

/-- `messages.Packet`: a `Message` (address pattern bytes plus arguments) or
a `Bundle` (time tag plus contained packets).  The argument `index` fields
and `remote_client` are omitted: `Message.create` assigns indices
positionally and leaves `remote_client` at `None` on both sides of every
round trip considered here. -/
inductive Packet where
  | msg (meta : PacketMeta) (address : List Byte) (arguments : List Argument)
  | bun (meta : PacketMeta) (timetag : TimeTag) (packets : List Packet)

/-- The type-tag section of `Message.build_packet`: a `TypeTags` argument
packs `"," + tags` as an OSC string, and packs nothing at all when the
message has no arguments (`TypeTags.get_pack_value` returns `None`). -/
def typetagBytes (args : List Argument) : List Byte :=
  if args.isEmpty then [] else osc_string (44 :: args.map Argument.tag)

/-- Concatenated argument payloads, in order.  `ArgumentList.pack` packs one
combined big-endian `struct` format; with standard sizes and no alignment
this equals the concatenation of the per-argument packings. -/
def payloadBytes : List Argument → List Byte
  | [] => []
  | a :: rest => a.pack ++ payloadBytes rest

/-- `Message.build_packet`: address OSC-string, then the type tags, then the
argument payloads. -/
def Message.build_packet (address : List Byte) (args : List Argument) : List Byte :=
  osc_string address ++ (typetagBytes args ++ payloadBytes args)

/-- Parsing of the argument section in tag order
(the loop in `Message.parse`). -/
def parseArgs : List Byte → List Byte → Option (List Argument × List Byte)
  | [], data => some ([], data)
  | t :: ts, data =>
    match Argument.parseTag t data with
    | Option.none => Option.none
    | some (a, rest) =>
      match parseArgs ts rest with
      | Option.none => Option.none
      | some (as, rest2) => some (a :: as, rest2)

/-- `Message.parse`: require a leading `"/"`, unpack the address string,
then, when a `","` follows, unpack the tag string, strip its leading commas
(`str.lstrip`) and parse each argument in tag order. -/
def Message.parse (data : List Byte) : Option (Packet × List Byte) :=
  if startsWithByte 47 data then
    (unpack_str_from_bytes data).bind (fun ar =>
      if startsWithByte 44 ar.2 then
        (unpack_str_from_bytes ar.2).bind (fun tr =>
          (parseArgs (tr.1.dropWhile (fun x => x == 44)) tr.2).bind (fun aa =>
            some (Packet.msg ⟨Bool.false, Option.none⟩ ar.1 aa.1, aa.2)))
      else some (Packet.msg ⟨Bool.false, Option.none⟩ ar.1 [], ar.2))
  else Option.none

/-- The ASCII bytes of `"#bundle"`. -/
def bundleHeader : List Byte := [35, 98, 117, 110, 100, 108, 101]

mutual

/-- `Message.build_packet` / `Bundle.build_packet` on the packet tree: a
bundle packs the `"#bundle"` OSC-string, the packed time tag, then each
contained packet wrapped as a length-prefixed blob. -/
def Packet.build_packet : Packet → List Byte
  | Packet.msg _ address args => Message.build_packet address args
  | Packet.bun _ tt packets =>
    osc_string bundleHeader ++ (beBytes 8 tt.to_uint64 ++ packetsBuild packets)

/-- The loop of `Bundle.build_packet` over the contained packets: each one
becomes a `BlobArgument` of its built bytes. -/
def packetsBuild : List Packet → List Byte
  | [] => []
  | p :: rest => Argument.pack (Argument.blob p.build_packet) ++ packetsBuild rest

end

/-- The assignment `packet.parent_index = ix; packet.parent_bundle = self`
performed by `Bundle.add_packet` on the packet being added. -/
def Packet.setParent (ix : Nat) : Packet → Packet
  | Packet.msg _ a as => Packet.msg ⟨Bool.true, some ix⟩ a as
  | Packet.bun _ t ps => Packet.bun ⟨Bool.true, some ix⟩ t ps

/-- `Bundle.add_packet` on the packet tree: stamp the packet with the next
index and append it (no-op on a message receiver, which Python never does). -/
def Bundle.add_packet (b : Packet) (p : Packet) : Packet :=
  match b with
  | Packet.bun m tt ps => Packet.bun m tt (ps ++ [p.setParent ps.length])
  | x => x

/-- Python slicing `l[:n]` for a possibly negative `n`. -/
def pySliceTo (n : Int) (l : List Byte) : List Byte :=
  if 0 ≤ n then l.take n.toNat else l.take (l.length - (-n).toNat)

/-- Python slicing `l[n:]` for a possibly negative `n`. -/
def pySliceFrom (n : Int) (l : List Byte) : List Byte :=
  if 0 ≤ n then l.drop n.toNat else l.drop (l.length - (-n).toNat)

mutual

/-- `Packet.parse`, with explicit fuel (the recursion consumes its input, so
any fuel above the input length is enough; the top-level wrappers below
supply it).  `Option.none` models the raised parse errors
(`MessageStartError`, `BundleStartError`, `PacketStartError`,
`struct.error`). -/
def parsePacketF : Nat → List Byte → Option (Packet × List Byte)
  | 0, _ => Option.none
  | fuel + 1, data =>
    if startsWithByte 47 data then Message.parse data
    else if data.take 8 = bundleHeader ++ [0] then parseBundleF fuel data
    else Option.none

/-- `Bundle.parse` (fuel recursion): check the header, read the time tag,
then run the length-prefixed inner-packet loop starting from a bundle with
an empty packet list. -/
def parseBundleF : Nat → List Byte → Option (Packet × List Byte)
  | 0, _ => Option.none
  | fuel + 1, data =>
    if data.take 8 = bundleHeader ++ [0] then
      if 8 ≤ (data.drop 8).length then
        match bundleLoopF fuel
            (Packet.bun ⟨Bool.false, Option.none⟩
              (TimeTag.from_uint64 (beVal ((data.drop 8).take 8))) [])
            ((data.drop 8).drop 8) with
        | Option.none => Option.none
        | some bun => some (bun, [])
      else Option.none
    else Option.none

/-- The `while len(packet_data)` loop of `Bundle.parse`: read a big-endian
signed 32-bit length, check the first byte of the payload, parse the inner
packet from the length slice, `add_packet` it, and continue past the slice
(Python slicing semantics, including negative lengths). -/
def bundleLoopF : Nat → Packet → List Byte → Option Packet
  | 0, _, _ => Option.none
  | fuel + 1, bun, data =>
    if data.isEmpty then some bun
    else if data.length < 4 then Option.none
    else
      let len := sdecode 4 (data.take 4)
      let rest := data.drop 4
      if rest.take 1 = [47] ∨ rest.take 1 = [35] then
        match parsePacketF fuel (pySliceTo len rest) with
        | Option.none => Option.none
        | some (p, _) => bundleLoopF fuel (Bundle.add_packet bun p) (pySliceFrom len rest)
      else Option.none

end

/-- `Packet.parse` with enough fuel for its input. -/
def Packet.parse (data : List Byte) : Option (Packet × List Byte) :=
  parsePacketF (3 * data.length + 3) data

/-- `Bundle.parse` with enough fuel for its input. -/
def Bundle.parse (data : List Byte) : Option (Packet × List Byte) :=
  parseBundleF (3 * data.length + 3) data

/-- Well-formedness of a message for the round-trip property: the address
pattern must begin with `"/"` (otherwise `Message.parse` raises
`MessageStartError`), its bytes must be NUL-free (the OSC string format
cannot carry NUL), and every argument must be well-formed in the sense of
`Argument.wf`. -/
def Message.wf (address : List Byte) (args : List Argument) : Bool :=
  startsWithByte 47 address
    && address.all (fun x => !(x == 0) && decide (x < 256))
    && args.all Argument.wf

/-- The parent bookkeeping fields of a `Packet` object, for reasoning about
`Bundle.add_packet` with object identity: `parent_bundle` holds the object
id of the owning bundle. -/
structure PacketObj where
  parent_bundle : Option Nat
  parent_index : Option Nat
deriving DecidableEq, Repr

/-- A `Bundle` object identified by `objId`, holding its `packets` list. -/
structure BundleObj where
  objId : Nat
  packets : List PacketObj
deriving DecidableEq, Repr

/-- `Bundle.add_packet` on objects: `ix = len(self)`,
`packet.parent_index = ix`, `packet.parent_bundle = self`, append. -/
def BundleObj.add_packet (b : BundleObj) (p : PacketObj) : BundleObj :=
  { b with packets := b.packets
      ++ [{ p with parent_bundle := some b.objId, parent_index := some b.packets.length }] }

/-- The parent bookkeeping of a packet in the tree model. -/
def Packet.metaOf : Packet → PacketMeta
  | Packet.msg m _ _ => m
  | Packet.bun m _ _ => m

/-- The C10 invariant on a parsed bundle: every contained packet is attached
to its enclosing bundle and records its own position as `parent_index`. -/
def bundleInv : Packet → Prop
  | Packet.bun _ _ ps =>
    ∀ k (h : k < ps.length), (ps.get ⟨k, h⟩).metaOf = ⟨Bool.true, some k⟩
  | Packet.msg _ _ _ => True

/-! ## Argument class inference (`Argument.get_argument_for_value`) -/

/-- The concrete `Argument` subclasses, as selected by inference. -/
inductive ArgCls where
  | int32Cls
  | float32Cls
  | stringCls
  | blobCls
  | int64Cls
  | timetagCls
  | float64Cls
  | charCls
  | rgbaCls
  | midiCls
  | trueCls
  | falseCls
  | nilCls
  | infinitumCls
deriving DecidableEq, Repr

/-- The Python values inference can receive.  A float is carried as its
IEEE-754 wire word; a `datetime` is carried as the time tag it converts
to (the conversion itself is outside the claims considered here). -/
inductive PyValue where
  | bool (b : Bool)
  | pynone
  | infinitum
  | int (v : Int)
  | float (w : Nat)
  | str (s : List Byte)
  | bytes (s : List Byte)
  | timetag (t : TimeTag)
  | datetime (t : TimeTag)
  | color (c : ColorRGBA)
  | midi (m : MidiMessage)
deriving DecidableEq, Repr

/-- `Argument.get_argument_for_value`: the `True` / `False` / `None` /
`Infinitum` identity checks come first; then the `ARGUMENTS_BY_TYPE` table
is consulted in registration order and the first class whose
`works_for_value` accepts the value wins.  For `int` that order is
`Int32Argument` then `Int64Argument`; for `float`, `Float32Argument`
accepts everything first; for `str`, `StringArgument` accepts everything
first (`CharArgument` is only used when constructed explicitly).
`Except.error` models the raised `ArgumentTypeError`. -/
def get_argument_for_value : PyValue → Except Unit ArgCls
  | PyValue.bool Bool.true => Except.ok ArgCls.trueCls
  | PyValue.bool Bool.false => Except.ok ArgCls.falseCls
  | PyValue.pynone => Except.ok ArgCls.nilCls
  | PyValue.infinitum => Except.ok ArgCls.infinitumCls
  | PyValue.int v =>
    if -(2 ^ 31) ≤ v ∧ v ≤ 2 ^ 31 - 1 then Except.ok ArgCls.int32Cls
    else if -(2 ^ 63) ≤ v ∧ v ≤ 2 ^ 63 - 1 then Except.ok ArgCls.int64Cls
    else Except.error ()
  | PyValue.float _ => Except.ok ArgCls.float32Cls
  | PyValue.str _ => Except.ok ArgCls.stringCls
  | PyValue.bytes _ => Except.ok ArgCls.blobCls
  | PyValue.timetag _ => Except.ok ArgCls.timetagCls
  | PyValue.datetime _ => Except.ok ArgCls.timetagCls
  | PyValue.color _ => Except.ok ArgCls.rgbaCls
  | PyValue.midi _ => Except.ok ArgCls.midiCls

/-! ## Addresses and pattern matching (`address.py`)

Address patterns are Python `str` values, modelled as `List Char`.  The
string methods used by the source (`split`, `join`, `lstrip`, `strip`,
`replace`, `startswith`, containment) are re-implemented below. -/

/-- `str.split(sep)` for a single-character separator: adjacent separators
produce empty segments, and the result is never the empty list. -/
def splitChar (sep : Char) : List Char → List (List Char)
  | [] => [[]]
  | c :: rest =>
    if c = sep then [] :: splitChar sep rest
    else
      match splitChar sep rest with
      | s :: ss => (c :: s) :: ss
      | [] => [[c]]

/-- `sep.join(...)` for a single-character separator. -/
def intercalateChar (sep : Char) : List (List Char) → List Char
  | [] => []
  | [s] => s
  | s :: rest => s ++ sep :: intercalateChar sep rest

/-- `str.lstrip(sep)` for a single-character argument. -/
def lstripChar (sep : Char) : List Char → List Char
  | [] => []
  | c :: rest => if c = sep then lstripChar sep rest else c :: rest

/-- `str.strip(sep)` for a single-character argument. -/
def stripChar (sep : Char) (l : List Char) : List Char :=
  (lstripChar sep ((lstripChar sep l).reverse)).reverse

/-- `str.startswith` with a single-character needle. -/
def startsWithChar (c : Char) (l : List Char) : Bool :=
  match l with
  | [] => Bool.false
  | x :: _ => x == c

/-- Whether the string contains two adjacent occurrences of `sep`
(substring search for a doubled character). -/
def hasAdj (sep : Char) : List Char → Bool
  | c1 :: c2 :: rest => (c1 = sep && c2 = sep) || hasAdj sep (c2 :: rest)
  | _ => Bool.false

/-- `"//" in pattern`. -/
def containsDbl (l : List Char) : Bool := hasAdj '/' l

/-- `str.split("//")` (split on a two-character separator, non-overlapping,
left to right). -/
def splitDbl : List Char → List (List Char)
  | [] => [[]]
  | '/' :: '/' :: rest => [] :: splitDbl rest
  | c :: rest =>
    match splitDbl rest with
    | s :: ss => (c :: s) :: ss
    | [] => [[c]]

/-- `address.AddressPart`: the text of one slash-delimited element of an
address and its root flag (the compiled regex and wildcard flag are
memoised in the source; here they are recomputed by `compile_re`). -/
structure AddressPart where
  part : List Char
  is_root : Bool
deriving DecidableEq, Repr

/-- The `enumerate` / skip-empty / flag-index-zero loop shared by both
branches of `Address.pattern_to_parts`, with the running `enumerate`
index `i` explicit. -/
def mkPartsAux (isRoot : Bool) (i : Nat) : List (List Char) → List AddressPart
  | [] => []
  | s :: rest =>
    if s.isEmpty then mkPartsAux isRoot (i + 1) rest
    else ⟨s, isRoot && decide (i = 0)⟩ :: mkPartsAux isRoot (i + 1) rest

/-- The non-`//` branch loop of `Address.pattern_to_parts`. -/
def mkParts (isRoot : Bool) (segs : List (List Char)) : List AddressPart :=
  mkPartsAux isRoot 0 segs

/-- The `//` branch loop of `Address.pattern_to_parts` (the index-0 part is
prefixed with `/` and flagged as root). -/
def mkPartsDblAux (i : Nat) : List (List Char) → List AddressPart
  | [] => []
  | s :: rest =>
    if s.isEmpty then mkPartsDblAux (i + 1) rest
    else ⟨if i = 0 then '/' :: s else s, decide (i = 0)⟩ :: mkPartsDblAux (i + 1) rest

/-- The loop of the `//` branch of `Address.pattern_to_parts`. -/
def mkPartsDbl (segs : List (List Char)) : List AddressPart :=
  mkPartsDblAux 0 segs

/-- `Address.pattern_to_parts`. -/
def pattern_to_parts (pattern : List Char) : List AddressPart :=
  if containsDbl pattern then
    mkPartsDbl (splitChar '/' ((splitDbl pattern).getLastD []))
  else
    mkParts (startsWithChar '/' pattern) (splitChar '/' (lstripChar '/' pattern))

/-- `Address.parts_to_pattern`; `none` models the `IndexError` raised on an
empty parts sequence (`parts[0]`). -/
def parts_to_pattern (parts : List AddressPart) : Option (List Char) :=
  match parts with
  | [] => Option.none
  | p0 :: rest =>
    let body := if rest.isEmpty then p0.part
                else intercalateChar '/' ((p0 :: rest).map AddressPart.part)
    some (if p0.is_root then '/' :: body else body)

/-- `address.Address`: the pattern string and its derived parts. -/
structure Address where
  pattern : List Char
  parts : List AddressPart
deriving DecidableEq, Repr

/-- `Address(pattern=p)`: `__post_init__` leaves `parts` empty for the
sentinel `"/"` and derives them with `pattern_to_parts` otherwise. -/
def Address.ofPattern (p : List Char) : Address :=
  if p = ['/'] then ⟨p, []⟩ else ⟨p, pattern_to_parts p⟩

/-- `Address.match_strings`. -/
def match_strings : List Char := ['?', '*', '[', ']', '{', '}']

/-- `Address.is_concrete`: `False` when the pattern contains `"//"`,
otherwise true iff no character of `match_strings` occurs (note the comma
is not in `match_strings`). -/
def is_concrete (pattern : List Char) : Bool :=
  if containsDbl pattern then Bool.false
  else !(pattern.any (fun c => match_strings.contains c))

/-- `str.replace` (fuel recursion over the input; the wrapper below supplies
length fuel, which is enough since every step consumes at least one
character).  The needle is non-empty by construction (`nc :: nrest`). -/
def replaceSubF (nc : Char) (nrest repl : List Char) : Nat → List Char → List Char
  | 0, l => l
  | _ + 1, [] => []
  | fuel + 1, c :: rest =>
    if (nc :: nrest).isPrefixOf (c :: rest) then
      repl ++ replaceSubF nc nrest repl fuel (rest.drop nrest.length)
    else c :: replaceSubF nc nrest repl fuel rest

/-- `str.replace` with the needle split into first character and rest. -/
def replaceSub (nc : Char) (nrest repl l : List Char) : List Char :=
  replaceSubF nc nrest repl l.length l

/-- Single-character substitution (`str.replace` with one-character needle
and replacement). -/
def chSub (x y : Char) (c : Char) : Char := if c = x then y else c

/-- Substring containment (`needle in s`). -/
def containsSub (needle : List Char) : List Char → Bool
  | [] => needle.isEmpty
  | c :: rest => needle.isPrefixOf (c :: rest) || containsSub needle rest

/-- Single-character containment (`c in s`). -/
def containsChar (x : Char) (l : List Char) : Bool := l.any (fun c => c == x)

/-- The replacement text for `*`: the regex `[\w|\+]*`. -/
def starRepl : List Char := ['[', '\\', 'w', '|', '\\', '+', ']', '*']

/-- The replacement text for `?`: the regex `\w?`. -/
def qmRepl : List Char := ['\\', 'w', '?']

/-- `AddressPart.compile_re`: strip slashes, then apply the glob-to-regex
substitutions in source order (`*`, the `[` wildcard check, `[!` to `[^`,
then `{` to `(`, `,` to `|`, `}` to `)`, then `?`), reporting whether any
wildcard marker was seen.  Returns the regex text; the compilation of the
text by `re.compile` is modelled separately by `parseRE`. -/
def compile_re (s : List Char) : List Char × Bool :=
  let p0 := stripChar '/' s
  let st1 := if containsChar '*' p0 then (replaceSub '*' [] starRepl p0, Bool.true)
             else (p0, Bool.false)
  let w2 := st1.2 || containsChar '[' st1.1
  let st3 := if containsSub ['[', '!'] st1.1
             then (replaceSub '[' ['!'] ['[', '^'] st1.1, Bool.true)
             else (st1.1, w2)
  let st4 := if containsChar '{' st3.1 then ((st3.1).map (chSub '{' '('), Bool.true) else st3
  let st5 := if containsChar ',' st4.1 then ((st4.1).map (chSub ',' '|'), Bool.true) else st4
  let st6 := if containsChar '}' st5.1 then ((st5.1).map (chSub '}' ')'), Bool.true) else st5
  if containsChar '?' st6.1 then (replaceSub '?' [] qmRepl st6.1, Bool.true) else st6

/-! A small regular-expression engine modelling the fragment of Python
`re` that `compile_re` output and address parts use: literals, `.`,
escapes (`\w` and escaped literals), character classes with negation and
ranges, groups, alternation, `*`, `?`, `+`.  `\w` is modelled on ASCII
word characters.  Matching is by Brzozowski derivatives, which agrees
with Python matching on this pure-regular fragment.  The parser returns
`none` on anything outside the fragment (modelling `re.error`, and
leaving unsupported-but-valid regexes out of scope: no claim below
depends on the verdict of such a pattern). -/

inductive ClsItem where
  | ch (c : Char)
  | range (lo hi : Char)
  | wordCls
deriving DecidableEq, Repr

inductive RE where
  | fail
  | emptyStr
  | anyChar
  | ch (c : Char)
  | cls (neg : Bool) (items : List ClsItem)
  | word
  | seq (a b : RE)
  | alt (a b : RE)
  | star (r : RE)
  | opt (r : RE)
  | plus (r : RE)
deriving DecidableEq, Repr

/-- Python `\w` on ASCII: letters, digits, underscore. -/
def isWordChar (c : Char) : Bool := c.isAlphanum || c == '_'

def clsItemMatch : ClsItem → Char → Bool
  | ClsItem.ch c, x => x == c
  | ClsItem.range lo hi, x => decide (lo ≤ x) && decide (x ≤ hi)
  | ClsItem.wordCls, x => isWordChar x

def nullable : RE → Bool
  | RE.fail => Bool.false
  | RE.emptyStr => Bool.true
  | RE.anyChar => Bool.false
  | RE.ch _ => Bool.false
  | RE.cls _ _ => Bool.false
  | RE.word => Bool.false
  | RE.seq a b => nullable a && nullable b
  | RE.alt a b => nullable a || nullable b
  | RE.star _ => Bool.true
  | RE.opt _ => Bool.true
  | RE.plus r => nullable r

def deriv : RE → Char → RE
  | RE.fail, _ => RE.fail
  | RE.emptyStr, _ => RE.fail
  | RE.anyChar, _ => RE.emptyStr
  | RE.ch c, x => if x == c then RE.emptyStr else RE.fail
  | RE.cls neg items, x =>
    if (if neg then !(items.any (fun it => clsItemMatch it x))
        else items.any (fun it => clsItemMatch it x)) then RE.emptyStr else RE.fail
  | RE.word, x => if isWordChar x then RE.emptyStr else RE.fail
  | RE.seq a b, x =>
    if nullable a then RE.alt (RE.seq (deriv a x) b) (deriv b x) else RE.seq (deriv a x) b
  | RE.alt a b, x => RE.alt (deriv a x) (deriv b x)
  | RE.star r, x => RE.seq (deriv r x) (RE.star r)
  | RE.opt r, x => deriv r x
  | RE.plus r, x => RE.seq (deriv r x) (RE.star r)

/-- `re.fullmatch` of a parsed regex against a text. -/
def reFullmatch (r : RE) (s : List Char) : Bool :=
  nullable (s.foldl deriv r)

/-- Character-class item list parser (between `[` and `]`). -/
def parseItemsF : Nat → List Char → Option (List ClsItem × List Char)
  | 0, _ => Option.none
  | _ + 1, [] => Option.none
  | _ + 1, ']' :: rest => some ([], ']' :: rest)
  | fuel + 1, '\\' :: c :: rest =>
    (parseItemsF fuel rest).map fun p =>
      ((if c = 'w' then ClsItem.wordCls else ClsItem.ch c) :: p.1, p.2)
  | fuel + 1, c :: '-' :: d :: rest =>
    if d = ']' then
      (parseItemsF fuel ('-' :: d :: rest)).map fun p => (ClsItem.ch c :: p.1, p.2)
    else
      (parseItemsF fuel rest).map fun p => (ClsItem.range c d :: p.1, p.2)
  | fuel + 1, c :: rest =>
    (parseItemsF fuel rest).map fun p => (ClsItem.ch c :: p.1, p.2)

mutual

/-- Alternation level of the regex grammar. -/
def parseAltF : Nat → List Char → Option (RE × List Char)
  | 0, _ => Option.none
  | fuel + 1, l =>
    match parseSeqF fuel l with
    | Option.none => Option.none
    | some (r, rest) =>
      match rest with
      | '|' :: rest2 =>
        match parseAltF fuel rest2 with
        | Option.none => Option.none
        | some (r2, rest3) => some (RE.alt r r2, rest3)
      | _ => some (r, rest)

/-- Concatenation level of the regex grammar. -/
def parseSeqF : Nat → List Char → Option (RE × List Char)
  | 0, _ => Option.none
  | fuel + 1, l =>
    match l with
    | [] => some (RE.emptyStr, [])
    | c :: _ =>
      if c = '|' ∨ c = ')' then some (RE.emptyStr, l)
      else
        match parseRepF fuel l with
        | Option.none => Option.none
        | some (r, rest) =>
          match parseSeqF fuel rest with
          | Option.none => Option.none
          | some (r2, rest2) => some (RE.seq r r2, rest2)

/-- Postfix-repetition level of the regex grammar. -/
def parseRepF : Nat → List Char → Option (RE × List Char)
  | 0, _ => Option.none
  | fuel + 1, l =>
    match parseAtomF fuel l with
    | Option.none => Option.none
    | some (r, rest) =>
      match rest with
      | '*' :: rest2 => some (RE.star r, rest2)
      | '?' :: rest2 => some (RE.opt r, rest2)
      | '+' :: rest2 => some (RE.plus r, rest2)
      | _ => some (r, rest)

/-- Atom level of the regex grammar. -/
def parseAtomF : Nat → List Char → Option (RE × List Char)
  | 0, _ => Option.none
  | fuel + 1, l =>
    match l with
    | [] => Option.none
    | '(' :: rest =>
      match parseAltF fuel rest with
      | some (r, ')' :: rest2) => some (r, rest2)
      | _ => Option.none
    | '[' :: '^' :: rest =>
      match parseItemsF (rest.length + 1) rest with
      | some (items, ']' :: rest2) => some (RE.cls Bool.true items, rest2)
      | _ => Option.none
    | '[' :: rest =>
      match parseItemsF (rest.length + 1) rest with
      | some (items, ']' :: rest2) => some (RE.cls Bool.false items, rest2)
      | _ => Option.none
    | '\\' :: c :: rest => some (if c = 'w' then RE.word else RE.ch c, rest)
    | '.' :: rest => some (RE.anyChar, rest)
    | c :: rest =>
      if c = '*' ∨ c = '?' ∨ c = '+' ∨ c = '|' ∨ c = ')' ∨ c = ']'
          ∨ c = '^' ∨ c = '$' ∨ c = '\\' then Option.none
      else some (RE.ch c, rest)

end

/-- `re.compile` of a regex text (with input-length fuel). -/
def parseRE (l : List Char) : Option RE :=
  match parseAltF (4 * l.length + 8) l with
  | some (r, []) => some r
  | _ => Option.none

/-- `AddressPart.match`: compile both sides; if this side has wildcards its
regex must fullmatch the other side's regex text, else if the other side
has wildcards symmetrically, else compare the regex texts exactly.
`none` models a raised `re.error` (either side failing to compile; the
source compiles both sides in every branch). -/
def AddressPart.matchOpt (a b : AddressPart) : Option Bool :=
  match parseRE (compile_re a.part).1, parseRE (compile_re b.part).1 with
  | some ra, some rb =>
    some (if (compile_re a.part).2 then reFullmatch ra (compile_re b.part).1
          else if (compile_re b.part).2 then reFullmatch rb (compile_re a.part).1
          else decide ((compile_re a.part).1 = (compile_re b.part).1))
  | _, _ => Option.none

/-- The error kinds of `Address.match`: the `ValueError` raised when
neither side is concrete, and `re.error` from part compilation. -/
inductive MatchErr where
  | needsConcrete
  | regexError
deriving DecidableEq, Repr

/-- The `zip` loop of `Address.match` (equal-length branch). -/
def matchZip : List AddressPart → List AddressPart → Except MatchErr Bool
  | [], _ => Except.ok Bool.true
  | _ :: _, [] => Except.ok Bool.true
  | p :: ps, q :: qs =>
    match AddressPart.matchOpt p q with
    | Option.none => Except.error MatchErr.regexError
    | some Bool.false => Except.ok Bool.false
    | some Bool.true => matchZip ps qs

/-- The `//` walk of `Address.match`: advance an index into the wildcard
side whenever the current concrete part matches it; break on index
overflow. -/
def dblLoop (wc : List AddressPart) : List AddressPart → Nat → Except MatchErr Nat
  | [], i => Except.ok i
  | p :: ps, i =>
    if h : i < wc.length then
      match AddressPart.matchOpt p (wc.get ⟨i, h⟩) with
      | Option.none => Except.error MatchErr.regexError
      | some Bool.true => dblLoop wc ps (i + 1)
      | some Bool.false => dblLoop wc ps i
    else Except.ok i

/-- `Address.match`: concrete vs concrete compares patterns; neither side
concrete raises `NeedsConcrete`; without `//` on either side the parts are
compared pointwise after a length check; otherwise the `//` side is walked
against the other side and must be fully consumed. -/
def Address.matchE (a b : Address) : Except MatchErr Bool :=
  if is_concrete a.pattern && is_concrete b.pattern then
    Except.ok (decide (a.pattern = b.pattern))
  else if !(is_concrete a.pattern) && !(is_concrete b.pattern) then
    Except.error MatchErr.needsConcrete
  else if !(containsDbl a.pattern) && !(containsDbl b.pattern) then
    if a.parts.length ≠ b.parts.length then Except.ok Bool.false
    else matchZip a.parts b.parts
  else
    let wp := if containsDbl a.pattern then (a.parts, b.parts) else (b.parts, a.parts)
    match dblLoop wp.1 wp.2 0 with
    | Except.error e => Except.error e
    | Except.ok i => Except.ok (decide (i = wp.1.length))

/-! ### AddressNode trees (claim C8) -/

/-- `Address.from_parts` (`Address(parts=tuple(parts))`): `__post_init__`
starts from the sentinel pattern `"/"`; for non-empty `parts` it recomputes
the pattern with `parts_to_pattern`, and for empty `parts` the sentinel
stays. -/
def Address.from_parts (ps : List AddressPart) : Address :=
  match parts_to_pattern ps with
  | some pat => ⟨pat, ps⟩
  | Option.none => ⟨['/'], ps⟩

/-- `Address.join` with a `str` argument (the `parent.address / self.name`
step): build `Address(pattern=other)`, raise `ValueError` (here `none`) if
its pattern contains `"//"`, otherwise concatenate the parts and rebuild
with `from_parts`. -/
def Address.join (a : Address) (other : List Char) : Option Address :=
  let o := Address.ofPattern other
  if containsDbl o.pattern then Option.none
  else some (Address.from_parts (a.parts ++ o.parts))

/-- `address.AddressNode`: the node name, the memoised `__address` slot and
the child nodes (the source keeps children in a name-keyed dict, modelled
as the list of its values; the parent pointer is passed explicitly as an
ancestor chain).  The other memoised slots do not enter the `address`
computation. -/
inductive NodeT where
  | mk (name : List Char) (cached : Option Address) (children : List NodeT)

/-- The node name. -/
def NodeT.name : NodeT → List Char
  | ⟨n, _, _⟩ => n

/-- The memoised `__address` slot. -/
def NodeT.cached : NodeT → Option Address
  | ⟨_, c, _⟩ => c

/-- The child nodes. -/
def NodeT.children : NodeT → List NodeT
  | ⟨_, _, ch⟩ => ch

mutual
/-- `AddressNode._reset_memoized_attrs`: clear the memo slot on the node
and, recursively, on every descendant. -/
def resetMemo : NodeT → NodeT
  | ⟨n, _, ch⟩ => ⟨n, Option.none, resetMemoL ch⟩

/-- `resetMemo` mapped over a list of children. -/
def resetMemoL : List NodeT → List NodeT
  | [] => []
  | c :: rest => resetMemo c :: resetMemoL rest
end

/-- `AddressNode.address` along an explicit ancestor chain (nearest parent
first; the empty chain means the node is a root): a memoised address is
returned as-is; a root node yields `Address(pattern='/' + name)`; otherwise
the parent's address is joined with the node's name.  `none` models the
`ValueError` escaping from `Address.join`. -/
def chainAddr : NodeT → List NodeT → Option Address
  | n, ancs =>
    match n.cached with
    | some a => some a
    | Option.none =>
      match ancs with
      | [] => some (Address.ofPattern ('/' :: n.name))
      | p :: rest =>
        match chainAddr p rest with
        | some pa => Address.join pa n.name
        | Option.none => Option.none

/-- The node reached from `n` by taking the `i`-th child at each step of
the path. -/
def nodeAtPath : NodeT → List Nat → Option NodeT
  | n, [] => some n
  | n, i :: rest =>
    match n.children.get? i with
    | some c => nodeAtPath c rest
    | Option.none => Option.none

/-- The ancestor chain (nearest parent first) of the node reached from `n`
by the path, relative to `n`: ancestors of `n` itself are not included. -/
def spineTo : NodeT → List Nat → Option (List NodeT)
  | _, [] => some []
  | n, i :: rest =>
    match n.children.get? i with
    | some c => (spineTo c rest).map (fun l => l ++ [n])
    | Option.none => Option.none

/-- The node names along a child path (excluding the start node). -/
def pathNames : NodeT → List Nat → List (List Char)
  | _, [] => []
  | n, i :: rest =>
    match n.children.get? i with
    | some c => c.name :: pathNames c rest
    | Option.none => []

/-- A usable node name: non-empty and slash-free, so that `Address.join`
appends exactly one non-root part. -/
def nameOk (n : List Char) : Bool :=
  !n.isEmpty && !containsChar '/' n

/-- Every node name along a child path (including the start node) is
`nameOk`. -/
def namesOkAlong : NodeT → List Nat → Bool
  | n, [] => nameOk n.name
  | n, i :: rest =>
    nameOk n.name &&
      match n.children.get? i with
      | some c => namesOkAlong c rest
      | Option.none => Bool.true

/-- The memo slots along a child path (including the start node) are all
clear. -/
def clearedAlong : NodeT → List Nat → Bool
  | n, [] => n.cached.isNone
  | n, i :: rest =>
    n.cached.isNone &&
      match n.children.get? i with
      | some c => clearedAlong c rest
      | Option.none => Bool.true

/-- The attach step of the `parent` setter (`bar.parent = baz`): raise
`KeyError` (here `none`) when `baz` already has a child named `bar.name`;
otherwise add `bar` to the children and run `_reset_memoized_attrs` on
`bar`'s whole subtree.  Detaching `bar` from its previous parent only
mutates the old tree, which the claim does not mention. -/
def setParentOp (baz bar : NodeT) : Option NodeT :=
  if (baz.children.map NodeT.name).contains bar.name then Option.none
  else some ⟨baz.name, baz.cached, baz.children ++ [resetMemo bar]⟩

/-- Iterated `Address.join` of slash-free single-segment names: the
successive `parent.address / name` steps along a path. -/
def extendAddr (a : Address) : List (List Char) → Address
  | [] => a
  | nm :: rest => extendAddr (Address.from_parts (a.parts ++ [⟨nm, Bool.false⟩])) rest

/-- Witness tree for C8: a `last` child under `bar`, both with stale
memoised addresses from their previous location. -/
def lastW : NodeT :=
  ⟨['l', 'a', 's', 't'],
    some (Address.ofPattern ['/', 'o', 'l', 'd', '/', 'b', 'a', 'r', '/', 'l', 'a', 's', 't']), []⟩

/-- Witness tree for C8: the subtree being re-parented. -/
def barW : NodeT :=
  ⟨['b', 'a', 'r'], some (Address.ofPattern ['/', 'o', 'l', 'd', '/', 'b', 'a', 'r']), [lastW]⟩

/-- Witness tree for C8: the new parent. -/
def bazW : NodeT := ⟨['b', 'a', 'z'], Option.none, []⟩

/-- Witness tree for C8: the new parent after `bar.parent = baz`. -/
def bazNewW : NodeT := ⟨['b', 'a', 'z'], Option.none, [resetMemo barW]⟩

/-! ## Theorems -/

theorem beBytes_length (k v : Nat) : (beBytes k v).length = k := by
  induction k generalizing v with
  | zero => rfl
  | succ k ih => simp [beBytes, ih]

theorem beVal_beBytes_mod (k v : Nat) : beVal (beBytes k v) = v % 2 ^ (8 * k) := by
  induction k generalizing v with
  | zero => simp [beBytes, beVal, Nat.mod_one]
  | succ k ih =>
    have hpow : 2 ^ (8 * (k + 1)) = 2 ^ (8 * k) * 256 := by
      rw [Nat.mul_succ, pow_add]
      norm_num
    rw [beBytes, beVal, beBytes_length, ih, hpow, Nat.mod_mul]
    ring

theorem beVal_beBytes {k v : Nat} (h : v < 2 ^ (8 * k)) :
    beVal (beBytes k v) = v := by
  rw [beVal_beBytes_mod, Nat.mod_eq_of_lt h]

theorem beBytes_lt (k v : Nat) : ∀ b ∈ beBytes k v, b < 256 := by
  induction k generalizing v with
  | zero => simp [beBytes]
  | succ k ih =>
    intro b hb
    rcases hb with _ | hb
    · exact Nat.mod_lt _ (by norm_num)
    · exact ih v b (by assumption)

theorem sdecode_sbytes {k : Nat} (hk : 1 ≤ k) {v : Int}
    (hlo : -(2 ^ (8 * k - 1)) ≤ v) (hhi : v < 2 ^ (8 * k - 1)) :
    sdecode k (sbytes k v) = v := by
  have hMN : (2 : Int) ^ (8 * k) = 2 ^ (8 * k - 1) * 2 := by
    have h1 : 8 * k - 1 + 1 = 8 * k := by omega
    calc (2 : Int) ^ (8 * k) = 2 ^ (8 * k - 1 + 1) := by rw [h1]
    _ = 2 ^ (8 * k - 1) * 2 := by rw [pow_succ]
  have hNpos : (0 : Int) < 2 ^ (8 * k - 1) := by positivity
  have hMpos : (0 : Int) < 2 ^ (8 * k) := by positivity
  have hMcast : ((2 ^ (8 * k) : Nat) : Int) = 2 ^ (8 * k) := by push_cast; ring
  have hNcast : ((2 ^ (8 * k - 1) : Nat) : Int) = 2 ^ (8 * k - 1) := by push_cast; ring
  set u : Nat := (v % (2 ^ (8 * k) : Int)).toNat with hu
  have hmod0 : (0 : Int) ≤ v % (2 ^ (8 * k) : Int) := Int.emod_nonneg v (ne_of_gt hMpos)
  have hmodM : v % (2 ^ (8 * k) : Int) < 2 ^ (8 * k) := Int.emod_lt_of_pos v hMpos
  have hucast : (u : Int) = v % (2 ^ (8 * k) : Int) := Int.toNat_of_nonneg hmod0
  have huM : u < 2 ^ (8 * k) := by omega
  have hval : v % (2 ^ (8 * k) : Int) = v ∨ v % (2 ^ (8 * k) : Int) = v + 2 ^ (8 * k) := by
    rcases le_or_lt 0 v with hv | hv
    · left
      exact Int.emod_eq_of_lt hv (by omega)
    · right
      have h1 : (v + 2 ^ (8 * k) * 1) % (2 ^ (8 * k) : Int) = v % (2 ^ (8 * k) : Int) :=
        Int.add_mul_emod_self_left v (2 ^ (8 * k)) 1
      have h2 : (0 : Int) ≤ v + 2 ^ (8 * k) := by omega
      have h3 : v + 2 ^ (8 * k) < 2 ^ (8 * k) := by omega
      rw [← Int.emod_eq_of_lt h2 h3, ← h1]
      ring_nf
  rw [sbytes, sdecode]
  simp only [← hu, beVal_beBytes huM]
  rcases hval with hcase | hcase
  · rw [if_pos (by omega)]
    omega
  · rw [if_neg (by omega)]
    omega

theorem sbytes_length (k : Nat) (v : Int) : (sbytes k v).length = k := by
  rw [sbytes, beBytes_length]

/-! ## Padding and OSC strings (`common.get_padded_size`,
`common.unpack_str_from_bytes`) -/

/-- The padded size of data of length `n` (`common.get_padded_size`, with the
length of the input taken as the argument). -/

theorem get_padded_size_gt (n : Nat) : n < get_padded_size n true := by
  rw [get_padded_size]
  have := Nat.div_add_mod n 4
  split
  · rw [if_pos rfl]
    omega
  · omega

theorem get_padded_size_ge (n : Nat) (b : Bool) : n ≤ get_padded_size n b := by
  rw [get_padded_size]
  have := Nat.div_add_mod n 4
  split
  · split <;> omega
  · omega

theorem get_padded_size_mod (n : Nat) (b : Bool) : get_padded_size n b % 4 = 0 := by
  rw [get_padded_size]
  split
  · split <;> omega
  · omega

theorem findZeroIdx_append (a : List Byte) (b : List Byte) (h : ∀ x ∈ a, x ≠ 0) :
    findZeroIdx (a ++ 0 :: b) = some a.length := by
  induction a with
  | nil => simp [findZeroIdx]
  | cons x xs ih =>
    have hx : x ≠ 0 := h x (by simp)
    simp only [List.cons_append, findZeroIdx, if_neg hx, List.append_eq]
    rw [ih (fun y hy => h y (by simp [hy]))]
    simp

/-- Packing of a `str` value by `StringArgument`: the bytes followed by NUL
padding up to the padded size (this is what `struct.pack` with format
`"{n}s"` produces for `n = get_padded_size(value)`). -/

theorem osc_string_length (s : List Byte) :
    (osc_string s).length = get_padded_size s.length true := by
  have := get_padded_size_gt s.length
  simp [osc_string]
  omega

theorem unpack_osc_string (s : List Byte) (hne : s ≠ []) (hz : ∀ x ∈ s, x ≠ 0)
    (rest : List Byte) :
    unpack_str_from_bytes (osc_string s ++ rest) = some (s, rest) := by
  obtain ⟨c, s', rfl⟩ : ∃ c s', s = c :: s' := by
    cases s with
    | nil => exact absurd rfl hne
    | cons a b => exact ⟨a, b, rfl⟩
  have hgt : (c :: s').length < get_padded_size (c :: s').length true :=
    get_padded_size_gt (c :: s').length
  set p := get_padded_size (c :: s').length true with hp
  set z := List.replicate (p - (c :: s').length - 1) (0 : Byte) with hzdef
  have hlayout : osc_string (c :: s') ++ rest = c :: (s' ++ 0 :: (z ++ rest)) := by
    rw [osc_string, ← hp, show p - (c :: s').length = (p - (c :: s').length - 1) + 1 by omega]
    simp [hzdef, List.replicate_succ]
  rw [hlayout, unpack_str_from_bytes]
  rw [findZeroIdx_append s' _ (fun y hy => hz y (by simp [hy]))]
  simp only
  have hn : s'.length + 1 = (c :: s').length := by simp
  have htake : List.take (s'.length + 1) (c :: (s' ++ 0 :: (z ++ rest))) = c :: s' := by
    rw [List.take_succ_cons]
    congr 1
    rw [show s' ++ 0 :: (z ++ rest) = s' ++ (0 :: (z ++ rest)) from rfl]
    exact List.take_left _ _
  have hdrop : List.drop (get_padded_size (s'.length + 1) true)
      (c :: (s' ++ 0 :: (z ++ rest))) = rest := by
    rw [hn, ← hp]
    have hsplit2 : c :: (s' ++ 0 :: (z ++ rest)) = ((c :: s') ++ 0 :: z) ++ rest := by
      simp
    have hlen2 : ((c :: s') ++ 0 :: z).length = p := by
      simp [hzdef]
      omega
    rw [hsplit2, ← hlen2]
    exact List.drop_left _ _
  rw [htake, hdrop]

theorem natCast_fdiv (m n : Nat) : ((m : Int)).fdiv ((n : Int)) = ((m / n : Nat) : Int) := by
  rw [Int.fdiv_eq_tdiv (by positivity) (by positivity)]
  exact_mod_cast (Int.ofNat_tdiv m n).symm

theorem fdiv_mod_component (u k : Nat) :
    (((u : Int)).fdiv ((2 ^ k : Int)) % 256).toNat = u / 2 ^ k % 256 := by
  have h2 : ((2 ^ k : Int)) = (((2 ^ k : Nat) : Int)) := by exact_mod_cast rfl
  rw [h2, natCast_fdiv]
  have h4 : (((u / 2 ^ k : Nat) : Int)) % ((256 : Int)) = (((u / 2 ^ k % 256 : Nat) : Int)) := by
    rw [show ((256 : Int)) = (((256 : Nat) : Int)) by norm_num]
    exact_mod_cast rfl
  rw [h4, Int.toNat_natCast]

theorem natCast_mod_toNat (u : Nat) : (((u : Int)) % 256).toNat = u % 256 := by
  have h4 : (((u : Nat) : Int)) % ((256 : Int)) = (((u % 256 : Nat) : Int)) := by
    rw [show ((256 : Int)) = (((256 : Nat) : Int)) by norm_num]
    exact_mod_cast rfl
  rw [h4, Int.toNat_natCast]

theorem rgba_from_to (c : ColorRGBA) (hr : c.r < 256) (hg : c.g < 256)
    (hb : c.b < 256) (ha : c.a < 256) :
    ColorRGBA.from_uint64 ((c.to_uint64 : Nat) : Int) = c := by
  obtain ⟨r, g, b, a⟩ := c
  simp only at hr hg hb ha
  rw [ColorRGBA.from_uint64, fdiv_mod_component, fdiv_mod_component,
    fdiv_mod_component, natCast_mod_toNat]
  simp only [ColorRGBA.to_uint64, ColorRGBA.mk.injEq]
  refine ⟨?_, ?_, ?_, ?_⟩ <;> omega

theorem timetag_from_to (t : TimeTag) (hs : t.seconds < 2 ^ 32)
    (hf : t.fraction < 2 ^ 32) :
    TimeTag.from_uint64 t.to_uint64 = t := by
  obtain ⟨s, f⟩ := t
  simp only at hs hf
  simp only [TimeTag.to_uint64, TimeTag.from_uint64, TimeTag.mk.injEq]
  constructor <;> omega

theorem timetag_to_uint64_lt (t : TimeTag) (hs : t.seconds < 2 ^ 32) :
    t.to_uint64 < 2 ^ 64 := by
  have : t.fraction % 2 ^ 32 < 2 ^ 32 := Nat.mod_lt _ (by norm_num)
  rw [TimeTag.to_uint64]
  omega

theorem take_len_append {α : Type} (l r : List α) (k : Nat) (h : l.length = k) :
    (l ++ r).take k = l := by
  subst h
  exact List.take_left l r

theorem drop_len_append {α : Type} (l r : List α) (k : Nat) (h : l.length = k) :
    (l ++ r).drop k = r := by
  subst h
  exact List.drop_left l r

/-- Parsing the packed payload of a well-formed argument under its own tag
recovers the argument and leaves the trailing bytes untouched. -/

theorem Argument.parseTag_pack (a : Argument) (h : a.wf = Bool.true)
    (rest : List Byte) :
    Argument.parseTag a.tag (a.pack ++ rest) = some (a, rest) := by
  cases a with
  | int32 v =>
    simp only [wf, Bool.and_eq_true, decide_eq_true_eq] at h
    have hlen : (sbytes 4 v).length = 4 := sbytes_length 4 v
    simp only [tag, pack, parseTag]
    rw [if_pos (by simp only [List.length_append, hlen]; omega)]
    rw [take_len_append _ _ _ hlen, drop_len_append _ _ _ hlen]
    rw [sdecode_sbytes (by norm_num) (by norm_num; omega) (by norm_num; omega)]
  | float32 w =>
    simp only [wf, decide_eq_true_eq] at h
    have hlen : (beBytes 4 w).length = 4 := beBytes_length 4 w
    simp only [tag, pack, parseTag]
    rw [if_pos (by simp only [List.length_append, hlen]; omega)]
    rw [take_len_append _ _ _ hlen, drop_len_append _ _ _ hlen]
    rw [beVal_beBytes (by norm_num at h ⊢; omega)]
  | string s =>
    simp only [wf, Bool.and_eq_true, List.all_eq_true, Bool.not_eq_eq_eq_not,
      Bool.not_true, List.isEmpty_eq_false, decide_eq_true_eq] at h
    obtain ⟨hne, hall⟩ := h
    have hz : ∀ x ∈ s, x ≠ 0 := by
      intro x hx
      have := hall x hx
      simp only [Bool.and_eq_true, Bool.not_eq_eq_eq_not, Bool.not_true,
        beq_eq_false_iff_ne, decide_eq_true_eq] at this
      exact this.1
    simp only [tag, pack, parseTag, if_neg hne]
    rw [unpack_osc_string s hne hz rest]
    rfl
  | blob s =>
    simp only [wf, Bool.and_eq_true, List.all_eq_true, decide_eq_true_eq] at h
    obtain ⟨hlen31, _⟩ := h
    have hge : s.length + 4 ≤ get_padded_size (s.length + 4) Bool.false :=
      get_padded_size_ge _ _
    set pad := get_padded_size (s.length + 4) Bool.false - 4 - s.length with hpad
    have hslen : (sbytes 4 (s.length : Int)).length = 4 := sbytes_length _ _
    simp only [tag, pack, parseTag]
    have hassoc : sbytes 4 (s.length : Int) ++ s ++ List.replicate pad 0 ++ rest
        = sbytes 4 (s.length : Int) ++ (s ++ (List.replicate pad 0 ++ rest)) := by
      simp [List.append_assoc]
    rw [hassoc]
    have hdlen : (sbytes 4 (s.length : Int) ++ (s ++ (List.replicate pad 0 ++ rest))).length
        = 4 + (s.length + (pad + rest.length)) := by
      simp [hslen]
    rw [if_pos (by rw [hdlen]; omega)]
    rw [take_len_append _ _ _ hslen]
    have hdec : sdecode 4 (sbytes 4 (s.length : Int)) = (s.length : Int) := by
      apply sdecode_sbytes (by norm_num)
      · have h0 : (0 : Int) ≤ (s.length : Int) := Int.natCast_nonneg _
        norm_num
        omega
      · norm_num
        omega
    rw [hdec]
    rw [if_neg (by omega)]
    rw [Int.toNat_natCast]
    rw [if_neg (by rw [hdlen]; omega)]
    rw [drop_len_append _ _ _ hslen]
    have htakes : (s ++ (List.replicate pad 0 ++ rest)).take s.length = s :=
      take_len_append _ _ _ rfl
    have hdropp : (sbytes 4 (s.length : Int) ++ (s ++ (List.replicate pad 0 ++ rest))).drop
        (get_padded_size (s.length + 4) Bool.false) = rest := by
      have hsplit : sbytes 4 (s.length : Int) ++ (s ++ (List.replicate pad 0 ++ rest))
          = (sbytes 4 (s.length : Int) ++ s ++ List.replicate pad 0) ++ rest := by
        simp [List.append_assoc]
      rw [hsplit]
      apply drop_len_append
      simp [hslen]
      omega
    rw [htakes, hdropp]
  | int64 v =>
    simp only [wf, Bool.and_eq_true, decide_eq_true_eq] at h
    have hlen : (sbytes 8 v).length = 8 := sbytes_length 8 v
    simp only [tag, pack, parseTag]
    rw [if_pos (by simp only [List.length_append, hlen]; omega)]
    rw [take_len_append _ _ _ hlen, drop_len_append _ _ _ hlen]
    rw [sdecode_sbytes (by norm_num) (by norm_num; omega) (by norm_num; omega)]
  | timetag t =>
    simp only [wf, Bool.and_eq_true, decide_eq_true_eq] at h
    have hlen : (beBytes 8 t.to_uint64).length = 8 := beBytes_length _ _
    simp only [tag, pack, parseTag]
    rw [if_pos (by simp only [List.length_append, hlen]; omega)]
    rw [take_len_append _ _ _ hlen, drop_len_append _ _ _ hlen]
    rw [beVal_beBytes (timetag_to_uint64_lt t h.1), timetag_from_to t h.1 h.2]
  | float64 w =>
    simp only [wf, decide_eq_true_eq] at h
    have hlen : (beBytes 8 w).length = 8 := beBytes_length 8 w
    simp only [tag, pack, parseTag]
    rw [if_pos (by simp only [List.length_append, hlen]; omega)]
    rw [take_len_append _ _ _ hlen, drop_len_append _ _ _ hlen]
    rw [beVal_beBytes (by norm_num at h ⊢; omega)]
  | char c => simp [wf] at h
  | rgba c =>
    simp only [wf, Bool.and_eq_true, decide_eq_true_eq] at h
    obtain ⟨⟨⟨hr, hg⟩, hb⟩, ha⟩ := h
    have hlt : c.to_uint64 < 2 ^ 32 := by
      obtain ⟨r, g, b, a⟩ := c
      simp only at hr hg hb ha
      simp only [ColorRGBA.to_uint64]
      omega
    have hlen : (sbytes 8 (c.to_uint64 : Int)).length = 8 := sbytes_length _ _
    simp only [tag, pack, parseTag]
    rw [if_pos (by simp only [List.length_append, hlen]; omega)]
    rw [take_len_append _ _ _ hlen, drop_len_append _ _ _ hlen]
    have hdec : sdecode 8 (sbytes 8 (c.to_uint64 : Int)) = (c.to_uint64 : Int) := by
      apply sdecode_sbytes (by norm_num)
      · have h0 : (0 : Int) ≤ (c.to_uint64 : Int) := Int.natCast_nonneg _
        norm_num
        omega
      · norm_num
        omega
    rw [hdec, rgba_from_to c hr hg hb ha]
  | midi m => simp [wf] at h
  | true => rfl
  | false => rfl
  | nil => rfl
  | infinitum => rfl

theorem Argument.tag_ne_zero (a : Argument) : a.tag ≠ 0 := by
  cases a <;> simp [tag]

theorem Argument.tag_ne_44 (a : Argument) : a.tag ≠ 44 := by
  cases a <;> simp [tag]

theorem Argument.pack_length_mod (a : Argument) : a.pack.length % 4 = 0 := by
  cases a with
  | int32 v => simp [pack, sbytes_length]
  | float32 w => simp [pack, beBytes_length]
  | string s =>
    rw [pack]
    split
    · rfl
    · rw [osc_string_length]
      exact get_padded_size_mod _ _
  | blob s =>
    have hge : s.length + 4 ≤ get_padded_size (s.length + 4) Bool.false :=
      get_padded_size_ge _ _
    have hmod : get_padded_size (s.length + 4) Bool.false % 4 = 0 :=
      get_padded_size_mod _ _
    simp [pack, sbytes_length]
    omega
  | int64 v => simp [pack, sbytes_length]
  | timetag t => simp [pack, beBytes_length]
  | float64 w => simp [pack, beBytes_length]
  | char c => simp [pack]
  | rgba c => simp [pack, sbytes_length]
  | midi m => simp [pack]
  | true => rfl
  | false => rfl
  | nil => rfl
  | infinitum => rfl

theorem payloadBytes_mod (args : List Argument) : (payloadBytes args).length % 4 = 0 := by
  induction args with
  | nil => rfl
  | cons a rest ih =>
    have := Argument.pack_length_mod a
    simp [payloadBytes]
    omega

theorem typetagBytes_mod (args : List Argument) : (typetagBytes args).length % 4 = 0 := by
  rw [typetagBytes]
  split
  · rfl
  · rw [osc_string_length]
    exact get_padded_size_mod _ _

theorem Message.build_packet_mod (address : List Byte) (args : List Argument) :
    (Message.build_packet address args).length % 4 = 0 := by
  have h1 : (osc_string address).length % 4 = 0 := by
    rw [osc_string_length]
    exact get_padded_size_mod _ _
  have h2 := typetagBytes_mod args
  have h3 := payloadBytes_mod args
  simp [Message.build_packet]
  omega

theorem packetsBuild_mod (ps : List Packet) : (packetsBuild ps).length % 4 = 0 := by
  induction ps with
  | nil => rfl
  | cons p rest ih =>
    have := Argument.pack_length_mod (Argument.blob p.build_packet)
    simp [packetsBuild]
    omega

theorem Packet.build_mod (p : Packet) : p.build_packet.length % 4 = 0 := by
  cases p with
  | msg m address args =>
    rw [Packet.build_packet]
    exact Message.build_packet_mod address args
  | bun m tt ps =>
    have h1 : (osc_string bundleHeader).length = 8 := rfl
    have h2 : (beBytes 8 tt.to_uint64).length = 8 := beBytes_length _ _
    have h3 := packetsBuild_mod ps
    simp [Packet.build_packet, h1, h2]
    omega

theorem parseArgs_payload (args : List Argument) (h : args.all Argument.wf = Bool.true)
    (suffix : List Byte) :
    parseArgs (args.map Argument.tag) (payloadBytes args ++ suffix) = some (args, suffix) := by
  induction args with
  | nil => simp [payloadBytes, parseArgs]
  | cons a rest ih =>
    simp only [List.all_cons, Bool.and_eq_true] at h
    simp only [List.map_cons, payloadBytes, parseArgs, List.append_assoc]
    rw [Argument.parseTag_pack a h.1 (payloadBytes rest ++ suffix)]
    simp only [ih h.2]

/-- The amended round-trip property for messages (P1): for a well-formed
message (address starting with `"/"` and NUL-free, arguments from the tag
set `{i,f,s,b,h,t,d,r,T,F,N,I}` with in-range values and non-empty NUL-free
strings), parsing the built packet returns the message and no leftover
bytes. -/
theorem Message.parse_build_packet (address : List Byte) (args : List Argument)
    (h : Message.wf address args = Bool.true) :
    Message.parse (Message.build_packet address args)
      = some (Packet.msg ⟨Bool.false, Option.none⟩ address args, []) := by
  simp only [Message.wf, Bool.and_eq_true] at h
  obtain ⟨⟨h47, hbytes⟩, hargs⟩ := h
  obtain ⟨t, rfl⟩ : ∃ t, address = 47 :: t := by
    cases address with
    | nil => simp [startsWithByte] at h47
    | cons x xs =>
      simp only [startsWithByte, beq_iff_eq] at h47
      exact ⟨xs, by rw [h47]⟩
  have hz : ∀ x ∈ 47 :: t, x ≠ 0 := by
    intro x hx
    simp only [List.all_eq_true, Bool.and_eq_true, Bool.not_eq_eq_eq_not, Bool.not_true,
      beq_eq_false_iff_ne, decide_eq_true_eq] at hbytes
    exact (hbytes x hx).1
  have hne : (47 : Byte) :: t ≠ [] := by simp
  have hstart : startsWithByte 47 (Message.build_packet (47 :: t) args) = Bool.true := by
    simp [Message.build_packet, osc_string, startsWithByte]
  rw [Message.parse, if_pos hstart, Message.build_packet,
    unpack_osc_string _ hne hz (typetagBytes args ++ payloadBytes args)]
  simp only [Option.some_bind]
  cases args with
  | nil =>
    simp [typetagBytes, payloadBytes, startsWithByte]
  | cons a rest =>
    have htags : typetagBytes (a :: rest)
        = osc_string (44 :: (a :: rest).map Argument.tag) := by
      simp [typetagBytes]
    have htagne : (44 : Byte) :: (a :: rest).map Argument.tag ≠ [] := by simp
    have htagz : ∀ x ∈ (44 : Byte) :: (a :: rest).map Argument.tag, x ≠ 0 := by
      intro x hx
      rw [List.mem_cons] at hx
      rcases hx with rfl | hx
      · simp
      · simp only [List.mem_map] at hx
        obtain ⟨b, _, rfl⟩ := hx
        exact Argument.tag_ne_zero b
    rw [htags]
    have hstart44 : startsWithByte 44
        (osc_string (44 :: (a :: rest).map Argument.tag) ++ payloadBytes (a :: rest))
        = Bool.true := by
      simp [osc_string, startsWithByte]
    rw [if_pos hstart44,
      unpack_osc_string _ htagne htagz (payloadBytes (a :: rest))]
    simp only [Option.some_bind]
    have hdrop : ((44 : Byte) :: (a :: rest).map Argument.tag).dropWhile (fun x => x == 44)
        = (a :: rest).map Argument.tag := by
      have h2 : (Argument.tag a == 44) = Bool.false := by
        have := Argument.tag_ne_44 a
        simp [this]
      simp only [List.dropWhile_cons, List.map_cons, h2]
      simp
    rw [hdrop]
    rw [show payloadBytes (a :: rest) = payloadBytes (a :: rest) ++ [] by simp]
    rw [parseArgs_payload (a :: rest) hargs []]
    simp only [Option.some_bind]

theorem sbytes_of_lt (k u : Nat) (h : u < 2 ^ (8 * k)) :
    sbytes k ((u : Nat) : Int) = beBytes k u := by
  rw [sbytes]
  congr 1
  have hcast : ((2 ^ (8 * k) : Nat) : Int) = (2 ^ (8 * k) : Int) := by push_cast; ring
  have h1 : ((u : Nat) : Int) % (2 ^ (8 * k) : Int) = ((u : Nat) : Int) := by
    apply Int.emod_eq_of_lt (by positivity)
    omega
  rw [h1, Int.toNat_natCast]

theorem beBytes8_split (u : Nat) (h : u < 2 ^ 32) :
    beBytes 8 u = 0 :: 0 :: 0 :: 0 :: beBytes 4 u := by
  simp only [beBytes, List.cons.injEq]
  norm_num
  refine ⟨?_, ?_, ?_, ?_⟩ <;> · show _ = (0 : Nat); omega

/-! ## Claim theorems for the codec -/

/-- C1 counterexample: the round-trip claim fails as stated.  The message
with address `"/a"` and the single argument `""` (an empty string, a legal
`s`-tagged argument) builds to `2f 61 00 00 2c 73 00 00`, but parsing those
bytes fails (`unpack_str_from_bytes` hits the end of the buffer and Python
raises `ValueError`), so `Message.parse(m.build_packet())` is not
`(m, b"")`. -/
theorem claim_C1_counterexample :
    Message.parse (Message.build_packet [47, 97] [Argument.string []]) = Option.none := rfl

/-- C1 (amended): for every Message whose address starts with `"/"` and is
NUL-free, and whose arguments are drawn from the tag set
`{i,f,s,b,h,t,d,r,T,F,N,I}` with values in range (strings non-empty and
NUL-free), parsing the bytes produced by building the message yields the
message back with no bytes left over.  Floats are compared by wire word
(the model value), time tags by their two 32-bit fields, which under the
well-formedness bounds coincides with packed-u64 identity. -/
theorem claim_C1 (address : List Byte) (args : List Argument)
    (h : Message.wf address args = Bool.true) :
    Message.parse (Message.build_packet address args)
      = some (Packet.msg ⟨Bool.false, Option.none⟩ address args, []) :=
  Message.parse_build_packet address args h

theorem claim_C1_witness :
    Message.parse (Message.build_packet [47, 102, 111, 111]
      [Argument.int32 1, Argument.float32 7, Argument.string [97, 98],
       Argument.blob [1, 2, 3], Argument.int64 (-5), Argument.timetag ⟨11, 12⟩,
       Argument.float64 9, Argument.rgba ⟨99, 100, 101, 102⟩, Argument.true,
       Argument.false, Argument.nil, Argument.infinitum])
      = some (Packet.msg ⟨Bool.false, Option.none⟩ [47, 102, 111, 111]
          [Argument.int32 1, Argument.float32 7, Argument.string [97, 98],
           Argument.blob [1, 2, 3], Argument.int64 (-5), Argument.timetag ⟨11, 12⟩,
           Argument.float64 9, Argument.rgba ⟨99, 100, 101, 102⟩, Argument.true,
           Argument.false, Argument.nil, Argument.infinitum], []) :=
  claim_C1 _ _ (by decide)

/-- C2 counterexample: an RGBA argument does not contribute 4 bytes of
payload.  `RGBArgument.struct_fmt` is `"q"`, so `struct.pack(">q", ...)`
emits 8 bytes (the repository test `test_color_args` asserts the `">q"`
format as well). -/
theorem claim_C2_counterexample :
    ((Argument.rgba ⟨1, 2, 3, 4⟩).pack).length ≠ 4 := by decide

/-- C2 (amended): an RGBA argument with components in 0..255 contributes
exactly 8 bytes of payload: four zero bytes followed by the big-endian
4-byte encoding of `(r<<24) | (g<<16) | (b<<8) | a` (that is, the
big-endian 64-bit encoding of that value). -/
theorem claim_C2 (r g b a : Nat) (hr : r < 256) (hg : g < 256) (hb : b < 256)
    (ha : a < 256) :
    (Argument.rgba ⟨r, g, b, a⟩).pack
      = 0 :: 0 :: 0 :: 0 :: beBytes 4 (r * 2 ^ 24 + g * 2 ^ 16 + b * 2 ^ 8 + a) := by
  have hu : (ColorRGBA.mk r g b a).to_uint64 = r * 2 ^ 24 + g * 2 ^ 16 + b * 2 ^ 8 + a := rfl
  have hlt : r * 2 ^ 24 + g * 2 ^ 16 + b * 2 ^ 8 + a < 2 ^ (8 * 8) := by omega
  rw [Argument.pack, hu, sbytes_of_lt _ _ hlt,
    beBytes8_split _ (by omega)]

theorem claim_C2_witness :
    (Argument.rgba ⟨99, 100, 101, 102⟩).pack
      = 0 :: 0 :: 0 :: 0 :: beBytes 4 (99 * 2 ^ 24 + 100 * 2 ^ 16 + 101 * 2 ^ 8 + 102) :=
  claim_C2 99 100 101 102 (by decide) (by decide) (by decide) (by decide)

/-- C3: the byte string built for any Message or Bundle (any nesting depth,
any arguments) has length divisible by 4. -/
theorem claim_C3 (p : Packet) : p.build_packet.length % 4 = 0 :=
  Packet.build_mod p

/-- C9: the codec supports the `m` MIDI argument: packing a `MidiMessage`
with byte-sized components emits exactly the four bytes
`(port, status, data1, data2)`, and parsing four bytes under tag `m`
recovers the `MidiMessage` (reason: the `MidiMessage` class itself is
modelled from the spec, see `MidiMessage`). -/
theorem claim_C9 (p s d1 d2 : Nat) (hp : p < 256) (hs : s < 256)
    (h1 : d1 < 256) (h2 : d2 < 256) (rest : List Byte) :
    (Argument.midi ⟨p, s, d1, d2⟩).pack = [p, s, d1, d2]
      ∧ Argument.parseTag 109 ([p, s, d1, d2] ++ rest)
          = some (Argument.midi ⟨p, s, d1, d2⟩, rest) :=
  ⟨rfl, rfl⟩

theorem claim_C9_witness :
    (Argument.midi ⟨9, 144, 60, 127⟩).pack = [9, 144, 60, 127]
      ∧ Argument.parseTag 109 ([9, 144, 60, 127] ++ [1, 2])
          = some (Argument.midi ⟨9, 144, 60, 127⟩, [1, 2]) :=
  claim_C9 9 144 60 127 (by decide) (by decide) (by decide) (by decide) [1, 2]

theorem addPacket_foldl_inv (ps : List PacketObj) (id : Nat) (acc : List PacketObj)
    (hacc : ∀ k (h : k < acc.length),
      (acc.get ⟨k, h⟩).parent_bundle = some id ∧ (acc.get ⟨k, h⟩).parent_index = some k) :
    ∀ k (h : k < (ps.foldl BundleObj.add_packet ⟨id, acc⟩).packets.length),
      ((ps.foldl BundleObj.add_packet ⟨id, acc⟩).packets.get ⟨k, h⟩).parent_bundle = some id
        ∧ ((ps.foldl BundleObj.add_packet ⟨id, acc⟩).packets.get ⟨k, h⟩).parent_index
            = some k := by
  induction ps generalizing acc with
  | nil => exact hacc
  | cons p rest ih =>
    rw [List.foldl_cons]
    have hstep : BundleObj.add_packet ⟨id, acc⟩ p
        = ⟨id, acc ++ [{ p with parent_bundle := some id, parent_index := some acc.length }]⟩ :=
      rfl
    rw [hstep]
    apply ih
    intro k h
    rcases Nat.lt_or_ge k acc.length with hk | hk
    · rw [List.get_append k hk]
      exact hacc k hk
    · have hkeq : k = acc.length := by
        simp only [List.length_append, List.length_cons, List.length_nil] at h
        omega
      subst hkeq
      rw [List.get_of_append rfl rfl]
      exact ⟨rfl, rfl⟩

theorem metaOf_setParent (p : Packet) (ix : Nat) :
    (p.setParent ix).metaOf = ⟨Bool.true, some ix⟩ := by
  cases p <;> rfl

theorem add_packet_inv (bun p : Packet) (h : bundleInv bun) :
    bundleInv (Bundle.add_packet bun p) := by
  cases bun with
  | msg m a as => simpa [Bundle.add_packet] using h
  | bun m tt ps =>
    simp only [Bundle.add_packet, bundleInv] at h ⊢
    intro k hk
    rcases Nat.lt_or_ge k ps.length with hlt | hge
    · rw [List.get_append k hlt]
      exact h k hlt
    · have hkeq : k = ps.length := by
        simp only [List.length_append, List.length_cons, List.length_nil] at hk
        omega
      subst hkeq
      rw [List.get_of_append rfl rfl]
      exact metaOf_setParent p ps.length

theorem bundleLoopF_inv : ∀ (fuel : Nat) (bun : Packet) (data : List Byte) (out : Packet),
    bundleInv bun → bundleLoopF fuel bun data = some out → bundleInv out := by
  intro fuel
  induction fuel with
  | zero =>
    intro bun data out _ h
    simp [bundleLoopF] at h
  | succ fuel ih =>
    intro bun data out hinv h
    simp only [bundleLoopF] at h
    split at h
    · cases h
      exact hinv
    · split at h
      · cases h
      · split at h
        · split at h
          · cases h
          · exact ih _ _ _ (add_packet_inv _ _ hinv) h
        · cases h

theorem parseBundleF_inv (fuel : Nat) (data : List Byte) (bun : Packet)
    (rest : List Byte) (h : parseBundleF fuel data = some (bun, rest)) :
    bundleInv bun := by
  cases fuel with
  | zero => simp [parseBundleF] at h
  | succ fuel =>
    simp only [parseBundleF] at h
    split at h
    · split at h
      · split at h
        · cases h
        · rename_i b hb
          injection h with h1
          injection h1 with h2 h3
          subst h2
          apply bundleLoopF_inv fuel _ _ _ _ hb
          intro k hk
          exact absurd hk (by simp)
      · cases h
    · cases h

/-- C10: (a) after any sequence of `Bundle.add_packet` calls on a bundle
created with an empty packet list, every packet records the bundle (by
object id) as `parent_bundle` and its own position as `parent_index`;
(b) every bundle produced by `Bundle.parse` satisfies the same invariant
(each contained packet is attached to the enclosing bundle with
`parent_index` equal to its position). -/
theorem claim_C10 :
    (∀ (id : Nat) (ps : List PacketObj) (k : Nat)
        (h : k < (ps.foldl BundleObj.add_packet ⟨id, []⟩).packets.length),
        ((ps.foldl BundleObj.add_packet ⟨id, []⟩).packets.get ⟨k, h⟩).parent_bundle = some id
          ∧ ((ps.foldl BundleObj.add_packet ⟨id, []⟩).packets.get ⟨k, h⟩).parent_index
              = some k)
    ∧ (∀ (data : List Byte) (bun : Packet) (rest : List Byte),
        Bundle.parse data = some (bun, rest) → bundleInv bun) := by
  constructor
  · intro id ps k h
    exact addPacket_foldl_inv ps id [] (fun k hk => absurd hk (by simp)) k h
  · intro data bun rest h
    exact parseBundleF_inv _ data bun rest h

theorem claim_C10_witness :
    (((([⟨Option.none, Option.none⟩, ⟨Option.none, Option.none⟩] : List PacketObj).foldl
          BundleObj.add_packet ⟨7, []⟩).packets.get ⟨1, by decide⟩).parent_bundle = some 7
      ∧ ((([⟨Option.none, Option.none⟩, ⟨Option.none, Option.none⟩] : List PacketObj).foldl
          BundleObj.add_packet ⟨7, []⟩).packets.get ⟨1, by decide⟩).parent_index = some 1)
    ∧ bundleInv (Packet.bun ⟨Bool.false, Option.none⟩ ⟨0, 1⟩
        [Packet.msg ⟨Bool.true, some 0⟩ [47, 97] []]) :=
  ⟨claim_C10.1 7 [⟨Option.none, Option.none⟩, ⟨Option.none, Option.none⟩] 1 (by decide),
   claim_C10.2
     [35, 98, 117, 110, 100, 108, 101, 0, 0, 0, 0, 0, 0, 0, 0, 1, 0, 0, 0, 4, 47, 97, 0, 0]
     (Packet.bun ⟨Bool.false, Option.none⟩ ⟨0, 1⟩
       [Packet.msg ⟨Bool.true, some 0⟩ [47, 97] []]) [] rfl⟩

/-- C6: argument inference selects the narrowest variant: `True` maps to
the True class, `False` to the False class, `None` to Nil, an integer in
the signed 32-bit range to Int32, and every other integer in the signed
64-bit range to Int64. -/
theorem claim_C6 (v : Int) :
    get_argument_for_value (PyValue.bool Bool.true) = Except.ok ArgCls.trueCls
    ∧ get_argument_for_value (PyValue.bool Bool.false) = Except.ok ArgCls.falseCls
    ∧ get_argument_for_value PyValue.pynone = Except.ok ArgCls.nilCls
    ∧ (-(2 ^ 31) ≤ v → v ≤ 2 ^ 31 - 1 →
        get_argument_for_value (PyValue.int v) = Except.ok ArgCls.int32Cls)
    ∧ ((v < -(2 ^ 31) ∨ 2 ^ 31 - 1 < v) → -(2 ^ 63) ≤ v → v ≤ 2 ^ 63 - 1 →
        get_argument_for_value (PyValue.int v) = Except.ok ArgCls.int64Cls) := by
  refine ⟨rfl, rfl, rfl, ?_, ?_⟩
  · intro h1 h2
    rw [get_argument_for_value, if_pos ⟨h1, h2⟩]
  · intro h1 h2 h3
    rw [get_argument_for_value, if_neg (by omega), if_pos ⟨h2, h3⟩]

theorem Address.ofPattern_pattern (p : List Char) : (Address.ofPattern p).pattern = p := by
  rw [Address.ofPattern]
  split <;> rfl

theorem splitChar_ne_nil (sep : Char) (l : List Char) : splitChar sep l ≠ [] := by
  match l with
  | [] => simp [splitChar]
  | c :: rest =>
    rw [splitChar]
    split
    · simp
    · split <;> simp

theorem splitChar_cons_exists (sep : Char) (l : List Char) :
    ∃ s ss, splitChar sep l = s :: ss := by
  cases h : splitChar sep l with
  | nil => exact absurd h (splitChar_ne_nil sep l)
  | cons s ss => exact ⟨s, ss, rfl⟩

theorem intercalate_splitChar (sep : Char) (l : List Char) :
    intercalateChar sep (splitChar sep l) = l := by
  induction l with
  | nil => rfl
  | cons c rest ih =>
    rw [splitChar]
    obtain ⟨s, ss, hss⟩ := splitChar_cons_exists sep rest
    split
    · rename_i hc
      rw [hss]
      have h1 : intercalateChar sep ([] :: s :: ss) = [] ++ sep :: intercalateChar sep (s :: ss) :=
        rfl
      rw [h1, ← hss, ih, hc]
      simp
    · rw [hss]
      cases ss with
      | nil =>
        have h1 : intercalateChar sep [c :: s] = c :: s := rfl
        have h2 := ih
        rw [hss] at h2
        have h3 : intercalateChar sep [s] = s := rfl
        rw [h3] at h2
        rw [h1, h2]
      | cons s2 ss2 =>
        have h1 : intercalateChar sep ((c :: s) :: s2 :: ss2)
            = (c :: s) ++ sep :: intercalateChar sep (s2 :: ss2) := rfl
        have h2 := ih
        rw [hss] at h2
        have h3 : intercalateChar sep (s :: s2 :: ss2)
            = s ++ sep :: intercalateChar sep (s2 :: ss2) := rfl
        rw [h3] at h2
        rw [h1, List.cons_append, h2]

theorem hasAdj_tail (sep c : Char) (l : List Char) (h : hasAdj sep (c :: l) = Bool.false) :
    hasAdj sep l = Bool.false := by
  cases l with
  | nil => rfl
  | cons c2 r =>
    rw [hasAdj] at h
    simp only [Bool.or_eq_false_iff] at h
    exact h.2

theorem hasAdj_head (sep x : Char) (l : List Char)
    (h : hasAdj sep (sep :: x :: l) = Bool.false) : x ≠ sep := by
  rw [hasAdj] at h
  simp only [Bool.or_eq_false_iff, Bool.and_eq_false_iff] at h
  rcases h.1 with h1 | h1
  · simp at h1
  · simpa using h1

theorem lstripChar_of_head (sep : Char) (l : List Char)
    (h : startsWithChar sep l = Bool.false) : lstripChar sep l = l := by
  cases l with
  | nil => rfl
  | cons c rest =>
    simp only [startsWithChar, beq_eq_false_iff_ne, ne_eq] at h
    rw [lstripChar, if_neg h]

theorem splitChar_segs_ne_nil (sep : Char) (n : Nat) :
    ∀ (l : List Char), l.length ≤ n → l ≠ [] →
      startsWithChar sep l = Bool.false → l.getLast? ≠ some sep →
      hasAdj sep l = Bool.false →
      ∀ seg ∈ splitChar sep l, seg ≠ [] := by
  induction n with
  | zero =>
    intro l hlen hne
    cases l with
    | nil => exact absurd rfl hne
    | cons c rest => simp at hlen
  | succ n ih =>
    intro l hlen hne hhead hlast hadj
    match l, hne with
    | c :: rest, _ =>
      have hcsep : c ≠ sep := by
        simpa [startsWithChar, beq_eq_false_iff_ne] using hhead
      rw [splitChar, if_neg hcsep]
      cases rest with
      | nil =>
        simp [splitChar]
      | cons c2 rest2 =>
        by_cases hc2 : c2 = sep
        · have hsplit : splitChar sep (c2 :: rest2) = [] :: splitChar sep rest2 := by
            rw [splitChar, if_pos hc2]
          rw [hsplit]
          have hne2 : rest2 ≠ [] := by
            intro hE
            subst hE
            simp only [List.getLast?_cons_cons, List.getLast?_singleton] at hlast
            exact hlast (by rw [hc2])
          have hadjr : hasAdj sep (sep :: rest2) = Bool.false := by
            have h0 := hasAdj_tail sep c _ hadj
            rwa [hc2] at h0
          have hhead2 : startsWithChar sep rest2 = Bool.false := by
            cases rest2 with
            | nil => exact absurd rfl hne2
            | cons c3 r3 =>
              have := hasAdj_head sep c3 r3 hadjr
              simpa [startsWithChar, beq_eq_false_iff_ne] using this
          have hlast2 : rest2.getLast? ≠ some sep := by
            cases rest2 with
            | nil => exact absurd rfl hne2
            | cons c3 r3 =>
              rw [List.getLast?_cons_cons, List.getLast?_cons_cons] at hlast
              exact hlast
          have hadj2 : hasAdj sep rest2 = Bool.false :=
            hasAdj_tail sep sep rest2 hadjr
          have hlen2 : rest2.length ≤ n := by
            simp only [List.length_cons] at hlen
            omega
          intro seg hseg
          rcases List.mem_cons.mp hseg with rfl | hseg2
          · simp
          · exact ih rest2 hlen2 hne2 hhead2 hlast2 hadj2 seg hseg2
        · obtain ⟨s, ss, hss⟩ := splitChar_cons_exists sep (c2 :: rest2)
          rw [hss]
          have hne2 : (c2 :: rest2) ≠ [] := by simp
          have hhead2 : startsWithChar sep (c2 :: rest2) = Bool.false := by
            simpa [startsWithChar, beq_eq_false_iff_ne] using hc2
          have hlast2 : (c2 :: rest2).getLast? ≠ some sep := by
            rwa [List.getLast?_cons_cons] at hlast
          have hadj2 : hasAdj sep (c2 :: rest2) = Bool.false :=
            hasAdj_tail sep c _ hadj
          have hlen2 : (c2 :: rest2).length ≤ n := by
            simp only [List.length_cons] at hlen ⊢
            omega
          have hall := ih (c2 :: rest2) hlen2 hne2 hhead2 hlast2 hadj2
          rw [hss] at hall
          intro seg hseg
          rcases List.mem_cons.mp hseg with rfl | hseg2
          · simp
          · exact hall seg (List.mem_cons.mpr (Or.inr hseg2))

theorem mkPartsAux_parts (b : Bool) (i : Nat) (segs : List (List Char))
    (h : ∀ s ∈ segs, s ≠ []) :
    (mkPartsAux b i segs).map AddressPart.part = segs := by
  induction segs generalizing i with
  | nil => rfl
  | cons s rest ih =>
    have hs : s ≠ [] := h s (by simp)
    rw [mkPartsAux, if_neg (by simpa [List.isEmpty_iff] using hs)]
    simp only [List.map_cons]
    rw [ih (i + 1) (fun x hx => h x (by simp [hx]))]

theorem mkPartsAux_ne_nil (b : Bool) (i : Nat) (s : List Char) (segs : List (List Char))
    (hs : s ≠ []) : mkPartsAux b i (s :: segs) ≠ [] := by
  rw [mkPartsAux, if_neg (by simpa [List.isEmpty_iff] using hs)]
  simp

theorem parts_to_pattern_mkParts (b : Bool) (s0 : List Char) (segs : List (List Char))
    (h : ∀ s ∈ s0 :: segs, s ≠ []) :
    parts_to_pattern (mkParts b (s0 :: segs))
      = some (if b then '/' :: intercalateChar '/' (s0 :: segs)
              else intercalateChar '/' (s0 :: segs)) := by
  have hs0 : s0 ≠ [] := h s0 (by simp)
  rw [mkParts, mkPartsAux, if_neg (by simpa [List.isEmpty_iff] using hs0)]
  cases segs with
  | nil =>
    have h0 : mkPartsAux b 1 [] = [] := rfl
    rw [h0, parts_to_pattern]
    have h2 : intercalateChar '/' [s0] = s0 := rfl
    cases b <;> simp [h2]
  | cons s1 rest =>
    have hs1 : s1 ≠ [] := h s1 (by simp)
    have hne := mkPartsAux_ne_nil b 1 s1 rest hs1
    have hemp : (mkPartsAux b 1 (s1 :: rest)).isEmpty = Bool.false := by
      simpa [List.isEmpty_iff] using hne
    have hmap : (mkPartsAux b 1 (s1 :: rest)).map AddressPart.part = s1 :: rest :=
      mkPartsAux_parts b 1 (s1 :: rest) (fun x hx => h x (by simp [hx]))
    rw [parts_to_pattern]
    simp only [hemp, List.map_cons, hmap]
    cases b <;> simp

/-- C4 counterexample: the pattern `"a/"` is non-empty and contains no
`"//"`, but `pattern_to_parts` discards its trailing empty segment, so
serialising the parts gives back `"a"`, not `"a/"`. -/
theorem claim_C4_counterexample :
    parts_to_pattern (Address.ofPattern ['a', '/']).parts = some ['a']
      ∧ some ['a'] ≠ some (['a', '/'] : List Char) := by
  exact ⟨rfl, by decide⟩

/-- C4 (amended): for every non-empty pattern that contains no `"//"` and
does not end with `"/"`, converting to parts and serialising back recovers
the pattern. -/
theorem claim_C4 (p : List Char) (hne : p ≠ []) (hdbl : containsDbl p = Bool.false)
    (hlast : p.getLast? ≠ some '/') :
    parts_to_pattern (Address.ofPattern p).parts = some p := by
  have hps : p ≠ ['/'] := by
    intro hE
    subst hE
    simp at hlast
  rw [Address.ofPattern, if_neg hps]
  simp only
  rw [pattern_to_parts, if_neg (by simp [containsDbl] at hdbl ⊢; exact hdbl)]
  cases hstart : startsWithChar '/' p with
  | true =>
    match p, hne with
    | c :: t, _ =>
      have hc : c = '/' := by
        simpa [startsWithChar] using hstart
      subst hc
      have htne : t ≠ [] := by
        intro hE
        subst hE
        exact hps rfl
      have hheadt : startsWithChar '/' t = Bool.false := by
        cases t with
        | nil => exact absurd rfl htne
        | cons c2 r2 =>
          have := hasAdj_head '/' c2 r2 hdbl
          simpa [startsWithChar, beq_eq_false_iff_ne] using this
      have hlstrip : lstripChar '/' ('/' :: t) = t := by
        rw [lstripChar, if_pos rfl, lstripChar_of_head '/' t hheadt]
      rw [hlstrip]
      have hlastt : t.getLast? ≠ some '/' := by
        cases t with
        | nil => exact absurd rfl htne
        | cons c2 r2 =>
          rwa [List.getLast?_cons_cons] at hlast
      have hadjt : hasAdj '/' t = Bool.false := hasAdj_tail '/' '/' t hdbl
      have hsegs := splitChar_segs_ne_nil '/' t.length t (le_refl _) htne hheadt hlastt hadjt
      obtain ⟨s, ss, hss⟩ := splitChar_cons_exists '/' t
      rw [hss]
      rw [parts_to_pattern_mkParts Bool.true s ss (by rw [← hss]; exact hsegs)]
      rw [← hss, intercalate_splitChar]
      simp
  | false =>
    have hlstrip : lstripChar '/' p = p := lstripChar_of_head '/' p hstart
    rw [hlstrip]
    have hsegs := splitChar_segs_ne_nil '/' p.length p (le_refl _) hne hstart hlast hdbl
    obtain ⟨s, ss, hss⟩ := splitChar_cons_exists '/' p
    rw [hss]
    rw [parts_to_pattern_mkParts Bool.false s ss (by rw [← hss]; exact hsegs)]
    rw [← hss, intercalate_splitChar]
    simp

theorem claim_C4_witness :
    parts_to_pattern (Address.ofPattern ['/', 'f', 'o', 'o', '/', 'b', 'a', 'r']).parts
      = some ['/', 'f', 'o', 'o', '/', 'b', 'a', 'r'] :=
  claim_C4 ['/', 'f', 'o', 'o', '/', 'b', 'a', 'r'] (by decide) (by decide) (by decide)

/-- C7: when neither address is concrete (each contains a wildcard
character or `"//"`), `Address.match` raises the needs-concrete
`ValueError` instead of returning a boolean. -/
theorem claim_C7 (pa pb : List Char) (ha : is_concrete pa = Bool.false)
    (hb : is_concrete pb = Bool.false) :
    Address.matchE (Address.ofPattern pa) (Address.ofPattern pb)
      = Except.error MatchErr.needsConcrete := by
  simp [Address.matchE, Address.ofPattern_pattern, ha, hb]

theorem claim_C7_witness :
    Address.matchE (Address.ofPattern ['/', 'a', '/', '/', 'b'])
      (Address.ofPattern ['/', '*']) = Except.error MatchErr.needsConcrete :=
  claim_C7 ['/', 'a', '/', '/', 'b'] ['/', '*'] (by decide) (by decide)

theorem matchOpt_comm (p q : AddressPart) (hp : (compile_re p.part).2 = Bool.false) :
    AddressPart.matchOpt p q = AddressPart.matchOpt q p := by
  rw [AddressPart.matchOpt, AddressPart.matchOpt]
  cases hra : parseRE (compile_re p.part).1 <;> cases hrb : parseRE (compile_re q.part).1
  · rfl
  · rfl
  · rfl
  · simp only [hp, Bool.false_eq_true, if_false]
    cases hq : (compile_re q.part).2
    · simp only [hq, Bool.false_eq_true, if_false]
      have hd : decide ((compile_re p.part).1 = (compile_re q.part).1)
          = decide ((compile_re q.part).1 = (compile_re p.part).1) :=
        decide_eq_decide.mpr eq_comm
      rw [hd]
    · simp only [hq, if_true]

theorem mem_lstripChar (sep c : Char) (l : List Char) (h : c ∈ lstripChar sep l) :
    c ∈ l := by
  induction l with
  | nil => simpa [lstripChar] using h
  | cons x rest ih =>
    rw [lstripChar] at h
    split at h
    · exact List.mem_cons.mpr (Or.inr (ih h))
    · exact h

theorem mem_stripChar (sep c : Char) (l : List Char) (h : c ∈ stripChar sep l) :
    c ∈ l := by
  rw [stripChar] at h
  rw [List.mem_reverse] at h
  have h2 := mem_lstripChar sep c _ h
  rw [List.mem_reverse] at h2
  exact mem_lstripChar sep c l h2

theorem mem_splitChar (sep : Char) (l : List Char) :
    ∀ seg ∈ splitChar sep l, ∀ c ∈ seg, c ∈ l := by
  induction l with
  | nil =>
    intro seg hseg c hc
    simp [splitChar] at hseg
    subst hseg
    simp at hc
  | cons x rest ih =>
    intro seg hseg c hc
    rw [splitChar] at hseg
    split at hseg
    · rcases List.mem_cons.mp hseg with rfl | hseg2
      · simp at hc
      · exact List.mem_cons.mpr (Or.inr (ih seg hseg2 c hc))
    · obtain ⟨s, ss, hss⟩ := splitChar_cons_exists sep rest
      rw [hss] at hseg
      rcases List.mem_cons.mp hseg with rfl | hseg2
      · rcases List.mem_cons.mp hc with rfl | hc2
        · simp
        · have : c ∈ rest := ih s (by rw [hss]; simp) c hc2
          exact List.mem_cons.mpr (Or.inr this)
      · have : seg ∈ splitChar sep rest := by
          rw [hss]
          exact List.mem_cons.mpr (Or.inr hseg2)
        exact List.mem_cons.mpr (Or.inr (ih seg this c hc))

theorem mem_mkPartsAux (b : Bool) (i : Nat) (segs : List (List Char)) (part : AddressPart)
    (h : part ∈ mkPartsAux b i segs) : part.part ∈ segs := by
  induction segs generalizing i with
  | nil => simpa [mkPartsAux] using h
  | cons s rest ih =>
    rw [mkPartsAux] at h
    split at h
    · exact List.mem_cons.mpr (Or.inr (ih (i + 1) h))
    · rcases List.mem_cons.mp h with rfl | h2
      · simp
      · exact List.mem_cons.mpr (Or.inr (ih (i + 1) h2))

theorem containsChar_eq_false (x : Char) (l : List Char) (h : ¬ x ∈ l) :
    containsChar x l = Bool.false := by
  rw [containsChar]
  rw [List.any_eq_false]
  intro c hc
  simp only [beq_iff_eq, beq_eq_false_iff_ne, ne_eq]
  intro hE
  subst hE
  exact h hc

theorem containsSub_two_false (a b2 : Char) (l : List Char) (h : ¬ a ∈ l) :
    containsSub [a, b2] l = Bool.false := by
  induction l with
  | nil => rfl
  | cons c rest ih =>
    rw [containsSub]
    have hca : c ≠ a := by
      intro hE
      subst hE
      exact h (by simp)
    have hpre : List.isPrefixOf [a, b2] (c :: rest) = Bool.false := by
      simp [List.isPrefixOf]
      intro hE
      exact absurd hE.symm hca
    rw [hpre, ih (fun hx => h (List.mem_cons.mpr (Or.inr hx)))]
    rfl

theorem compile_re_nowc (s : List Char)
    (hstar : ¬ '*' ∈ s) (hbr : ¬ '[' ∈ s) (hob : ¬ '{' ∈ s)
    (hcm : ¬ ',' ∈ s) (hcb : ¬ '}' ∈ s) (hqm : ¬ '?' ∈ s) :
    compile_re s = (stripChar '/' s, Bool.false) := by
  have hsub : ∀ c : Char, ¬ c ∈ s → ¬ c ∈ stripChar '/' s := fun c hc hmem =>
    hc (mem_stripChar '/' c s hmem)
  rw [compile_re]
  simp only [containsChar_eq_false _ _ (hsub _ hstar),
    containsChar_eq_false _ _ (hsub _ hbr),
    containsChar_eq_false _ _ (hsub _ hob),
    containsChar_eq_false _ _ (hsub _ hcm),
    containsChar_eq_false _ _ (hsub _ hcb),
    containsChar_eq_false _ _ (hsub _ hqm),
    containsSub_two_false '[' '!' _ (hsub _ hbr),
    Bool.false_eq_true, if_false, Bool.false_or]

theorem containsDbl_of_concrete (p : List Char) (h : is_concrete p = Bool.true) :
    containsDbl p = Bool.false := by
  cases hd : containsDbl p with
  | false => rfl
  | true =>
    rw [is_concrete, if_pos hd] at h
    exact absurd h (by simp)

theorem concrete_no_match_char (p : List Char) (h : is_concrete p = Bool.true) :
    ∀ x ∈ match_strings, ¬ x ∈ p := by
  intro x hx hxp
  rw [is_concrete, if_neg (by rw [containsDbl_of_concrete p h]; simp)] at h
  simp only [Bool.not_eq_eq_eq_not, Bool.not_true] at h
  rw [List.any_eq_false] at h
  exact h x hxp (List.elem_eq_true_of_mem hx)

theorem concrete_parts_nowc (p : List Char) (hc : is_concrete p = Bool.true)
    (hcomma : ¬ ',' ∈ p) :
    ∀ part ∈ (Address.ofPattern p).parts, (compile_re part.part).2 = Bool.false := by
  intro part hpart
  rw [Address.ofPattern] at hpart
  split at hpart
  · simp at hpart
  · simp only at hpart
    rw [pattern_to_parts,
      if_neg (by rw [containsDbl_of_concrete p hc]; simp)] at hpart
    have htext := mem_mkPartsAux _ _ _ _ hpart
    have hchars : ∀ c ∈ part.part, c ∈ p := fun c hcmem =>
      mem_lstripChar '/' c p
        (mem_splitChar '/' (lstripChar '/' p) part.part htext c hcmem)
    have habs : ∀ x : Char, ¬ x ∈ p → ¬ x ∈ part.part := fun x hxp hxpart =>
      hxp (hchars x hxpart)
    have hms := concrete_no_match_char p hc
    rw [compile_re_nowc part.part
      (habs _ (hms '*' (by simp [match_strings])))
      (habs _ (hms '[' (by simp [match_strings])))
      (habs _ (hms '{' (by simp [match_strings])))
      (habs _ hcomma)
      (habs _ (hms '}' (by simp [match_strings])))
      (habs _ (hms '?' (by simp [match_strings])))]

theorem matchZip_comm (l1 l2 : List AddressPart)
    (h : ∀ p ∈ l1, (compile_re p.part).2 = Bool.false) :
    matchZip l1 l2 = matchZip l2 l1 := by
  induction l1 generalizing l2 with
  | nil =>
    cases l2 with
    | nil => rfl
    | cons q qs => rfl
  | cons p ps ih =>
    cases l2 with
    | nil => rfl
    | cons q qs =>
      rw [matchZip, matchZip, matchOpt_comm p q (h p (by simp))]
      cases hm : AddressPart.matchOpt q p with
      | none => rfl
      | some bv =>
        cases bv with
        | false => rfl
        | true =>
          simp only
          exact ih qs (fun x hx => h x (by simp [hx]))

theorem match_comm_aux (pa pb : List Char)
    (hca : is_concrete pa = Bool.true) (hcb : is_concrete pb = Bool.false)
    (hcomma : ¬ ',' ∈ pa) :
    Address.matchE (Address.ofPattern pa) (Address.ofPattern pb)
      = Address.matchE (Address.ofPattern pb) (Address.ofPattern pa) := by
  have hdpa : containsDbl pa = Bool.false := containsDbl_of_concrete pa hca
  rw [Address.matchE, Address.matchE]
  simp only [Address.ofPattern_pattern, hca, hcb, hdpa, Bool.and_false, Bool.false_and,
    Bool.not_true, Bool.not_false, Bool.true_and, Bool.and_true, Bool.false_eq_true,
    if_false]
  cases hdb : containsDbl pb with
  | false =>
    simp only [Bool.not_false, Bool.true_and, Bool.and_true, if_true]
    by_cases hlen : (Address.ofPattern pa).parts.length = (Address.ofPattern pb).parts.length
    · rw [if_neg (by omega), if_neg (by omega)]
      exact matchZip_comm _ _ (concrete_parts_nowc pa hca hcomma)
    · rw [if_pos (by omega), if_pos (by omega)]
  | true =>
    simp only [Bool.not_true, Bool.false_and, Bool.and_false, Bool.false_eq_true, if_false,
      if_true]

/-- C5 counterexample: the matcher does not commute for `/a,b` vs `/*`.
The pattern `/a,b` is concrete (`,` is not in `match_strings`), `/*` is
not; matching `/a,b` against `/*` compiles the comma part to the regex
`a|b` and tests it against the text `[\w|\+]*`, which fails, while the
reverse direction tests `[\w|\+]*` against the text `a|b`, which succeeds. -/
theorem claim_C5_counterexample :
    is_concrete ['/', 'a', ',', 'b'] = Bool.true
    ∧ is_concrete ['/', '*'] = Bool.false
    ∧ Address.matchE (Address.ofPattern ['/', 'a', ',', 'b']) (Address.ofPattern ['/', '*'])
        = Except.ok Bool.false
    ∧ Address.matchE (Address.ofPattern ['/', '*']) (Address.ofPattern ['/', 'a', ',', 'b'])
        = Except.ok Bool.true :=
  ⟨rfl, rfl, rfl, rfl⟩

/-- C5 (amended): if exactly one of the two addresses is concrete and the
concrete side's pattern contains no comma, then `A.match(B)` and
`B.match(A)` agree (as results, errors included).  The comma restriction
is forced by the counterexample: `,` acts as a wildcard in
`compile_re` but is not checked by `is_concrete`. -/
theorem claim_C5 (pa pb : List Char) (hx : is_concrete pa ≠ is_concrete pb)
    (hca : is_concrete pa = Bool.true → ¬ ',' ∈ pa)
    (hcb : is_concrete pb = Bool.true → ¬ ',' ∈ pb) :
    Address.matchE (Address.ofPattern pa) (Address.ofPattern pb)
      = Address.matchE (Address.ofPattern pb) (Address.ofPattern pa) := by
  cases ha : is_concrete pa with
  | true =>
    cases hb : is_concrete pb with
    | true => exact absurd (ha.trans hb.symm) hx
    | false => exact match_comm_aux pa pb ha hb (hca ha)
  | false =>
    cases hb : is_concrete pb with
    | true => exact (match_comm_aux pb pa hb ha (hcb hb)).symm
    | false => exact absurd (ha.trans hb.symm) hx

theorem claim_C5_witness :
    Address.matchE (Address.ofPattern ['/', 'f', 'o', 'o'])
        (Address.ofPattern ['/', '*'])
      = Address.matchE (Address.ofPattern ['/', '*'])
        (Address.ofPattern ['/', 'f', 'o', 'o']) :=
  claim_C5 ['/', 'f', 'o', 'o'] ['/', '*'] (by decide) (fun _ => by decide)
    (fun _ => by decide)

theorem claim_C6_witness :
    get_argument_for_value (PyValue.int 5) = Except.ok ArgCls.int32Cls
    ∧ get_argument_for_value (PyValue.int (2 ^ 40)) = Except.ok ArgCls.int64Cls :=
  ⟨(claim_C6 5).2.2.2.1 (by norm_num) (by norm_num),
   (claim_C6 (2 ^ 40)).2.2.2.2 (by norm_num) (by norm_num) (by norm_num)⟩

theorem from_parts_parts (ps : List AddressPart) : (Address.from_parts ps).parts = ps := by
  rw [Address.from_parts]
  cases parts_to_pattern ps <;> rfl

theorem from_parts_pattern_of_some (ps : List AddressPart) (pat : List Char)
    (h : parts_to_pattern ps = some pat) : (Address.from_parts ps).pattern = pat := by
  rw [Address.from_parts, h]

theorem chainAddr_congr (nm : List Char) (c : Option Address) (ch1 ch2 : List NodeT)
    (ancs : List NodeT) :
    chainAddr ⟨nm, c, ch1⟩ ancs = chainAddr ⟨nm, c, ch2⟩ ancs := by
  cases c <;> cases ancs <;> rfl

theorem resetMemo_name (n : NodeT) : (resetMemo n).name = n.name := by
  cases n
  rfl

theorem resetMemo_cached (n : NodeT) : (resetMemo n).cached = Option.none := by
  cases n
  rfl

theorem resetMemo_children (n : NodeT) : (resetMemo n).children = resetMemoL n.children := by
  cases n
  rfl

theorem resetMemoL_get (l : List NodeT) : ∀ i : Nat,
    (resetMemoL l).get? i = (l.get? i).map resetMemo := by
  induction l with
  | nil => intro i; rfl
  | cons c rest ih =>
    intro i
    cases i with
    | zero => rfl
    | succ j => simpa [resetMemoL] using ih j

theorem nodeAtPath_resetMemo (p : List Nat) : ∀ n : NodeT,
    nodeAtPath (resetMemo n) p = (nodeAtPath n p).map resetMemo := by
  induction p with
  | nil => intro n; rfl
  | cons i rest ih =>
    intro n
    rw [nodeAtPath, nodeAtPath, resetMemo_children, resetMemoL_get]
    cases hc : n.children.get? i with
    | none => rfl
    | some c0 => simpa using ih c0

theorem spineTo_resetMemo (p : List Nat) : ∀ n : NodeT,
    spineTo (resetMemo n) p = (spineTo n p).map (List.map resetMemo) := by
  induction p with
  | nil => intro n; rfl
  | cons i rest ih =>
    intro n
    rw [spineTo, spineTo, resetMemo_children, resetMemoL_get]
    cases hc : n.children.get? i with
    | none => rfl
    | some c0 =>
      simp only [Option.map_some']
      rw [ih c0]
      cases hs : spineTo c0 rest with
      | none => rfl
      | some sp0 => simp [List.map_append]

theorem pathNames_resetMemo (p : List Nat) : ∀ n : NodeT,
    pathNames (resetMemo n) p = pathNames n p := by
  induction p with
  | nil => intro n; rfl
  | cons i rest ih =>
    intro n
    rw [pathNames, pathNames, resetMemo_children, resetMemoL_get]
    cases hc : n.children.get? i with
    | none => rfl
    | some c0 => simp [resetMemo_name, ih c0]

theorem namesOkAlong_resetMemo (p : List Nat) : ∀ n : NodeT,
    namesOkAlong (resetMemo n) p = namesOkAlong n p := by
  induction p with
  | nil =>
    intro n
    rw [namesOkAlong, namesOkAlong, resetMemo_name]
  | cons i rest ih =>
    intro n
    rw [namesOkAlong, namesOkAlong, resetMemo_name, resetMemo_children, resetMemoL_get]
    cases hc : n.children.get? i with
    | none => rfl
    | some c0 => simp [ih c0]

theorem clearedAlong_resetMemo (p : List Nat) : ∀ n : NodeT,
    clearedAlong (resetMemo n) p = Bool.true := by
  induction p with
  | nil =>
    intro n
    rw [clearedAlong, resetMemo_cached]
    rfl
  | cons i rest ih =>
    intro n
    rw [clearedAlong, resetMemo_cached, resetMemo_children, resetMemoL_get]
    cases hc : n.children.get? i with
    | none => rfl
    | some c0 => simpa using ih c0

theorem namesOkAlong_head (n : NodeT) (p : List Nat) (h : namesOkAlong n p = Bool.true) :
    nameOk n.name = Bool.true := by
  cases p with
  | nil => simpa [namesOkAlong] using h
  | cons i rest =>
    rw [namesOkAlong, Bool.and_eq_true] at h
    exact h.1

theorem clearedAlong_head (n : NodeT) (p : List Nat) (h : clearedAlong n p = Bool.true) :
    n.cached = Option.none := by
  cases p with
  | nil =>
    rw [clearedAlong] at h
    exact Option.isNone_iff_eq_none.mp h
  | cons i rest =>
    rw [clearedAlong, Bool.and_eq_true] at h
    exact Option.isNone_iff_eq_none.mp h.1

theorem not_mem_of_containsChar (x : Char) (l : List Char)
    (h : containsChar x l = Bool.false) : ¬ x ∈ l := by
  rw [containsChar, List.any_eq_false] at h
  intro hm
  exact absurd (by simp) (h x hm)

theorem splitChar_no_sep (sep : Char) (l : List Char)
    (h : containsChar sep l = Bool.false) : splitChar sep l = [l] := by
  induction l with
  | nil => rfl
  | cons c rest ih =>
    have hm := not_mem_of_containsChar sep (c :: rest) h
    have hc : ¬ c = sep := fun hh => hm (hh ▸ List.mem_cons_self c rest)
    have hrest : containsChar sep rest = Bool.false :=
      containsChar_eq_false sep rest (fun hh => hm (List.mem_cons_of_mem c hh))
    rw [splitChar, if_neg hc, ih hrest]

theorem hasAdj_no_mem (sep : Char) (l : List Char)
    (h : containsChar sep l = Bool.false) : hasAdj sep l = Bool.false := by
  induction l with
  | nil => rfl
  | cons c rest ih =>
    have hm := not_mem_of_containsChar sep (c :: rest) h
    have hc : ¬ c = sep := fun hh => hm (hh ▸ List.mem_cons_self c rest)
    have hrest : containsChar sep rest = Bool.false :=
      containsChar_eq_false sep rest (fun hh => hm (List.mem_cons_of_mem c hh))
    cases rest with
    | nil => rfl
    | cons c2 r2 =>
      rw [hasAdj]
      simp [hc, ih hrest]

theorem ofPattern_single (nm : List Char) (h : nameOk nm = Bool.true) :
    Address.ofPattern nm = ⟨nm, [⟨nm, Bool.false⟩]⟩ := by
  rw [nameOk, Bool.and_eq_true] at h
  obtain ⟨hne, hns⟩ := h
  have hne2 : nm ≠ [] := by
    cases nm with
    | nil => simp at hne
    | cons c r => simp
  have hns2 : containsChar '/' nm = Bool.false := by
    cases hcc : containsChar '/' nm with
    | false => rfl
    | true => rw [hcc] at hns; simp at hns
  have hm := not_mem_of_containsChar '/' nm hns2
  have hnroot : ¬ nm = ['/'] := fun hh => hm (by rw [hh]; exact List.mem_singleton.mpr rfl)
  have hsw : startsWithChar '/' nm = Bool.false := by
    cases nm with
    | nil => rfl
    | cons c r =>
      have hc : ¬ c = '/' := fun hh => hm (hh ▸ List.mem_cons_self c r)
      simpa [startsWithChar] using hc
  have hdbl : containsDbl nm = Bool.false := hasAdj_no_mem '/' nm hns2
  rw [Address.ofPattern, if_neg hnroot, pattern_to_parts]
  rw [if_neg (by simp [hdbl] : ¬ containsDbl nm = Bool.true)]
  rw [hsw, lstripChar_of_head '/' nm hsw, splitChar_no_sep '/' nm hns2]
  have hnmE : nm.isEmpty = Bool.false := by
    cases nm with
    | nil => exact absurd rfl hne2
    | cons c r => rfl
  simp [mkParts, mkPartsAux, hnmE]

theorem join_single (a : Address) (nm : List Char) (h : nameOk nm = Bool.true) :
    Address.join a nm = some (Address.from_parts (a.parts ++ [⟨nm, Bool.false⟩])) := by
  rw [Address.join, ofPattern_single nm h]
  rw [nameOk, Bool.and_eq_true] at h
  obtain ⟨hne, hns⟩ := h
  have hns2 : containsChar '/' nm = Bool.false := by
    cases hcc : containsChar '/' nm with
    | false => rfl
    | true => rw [hcc] at hns; simp at hns
  have hdbl : containsDbl nm = Bool.false := hasAdj_no_mem '/' nm hns2
  simp [hdbl]

theorem intercalateChar_append (sep : Char) (l2 : List (List Char)) :
    ∀ l1 : List (List Char), l1 ≠ [] → l2 ≠ [] →
      intercalateChar sep (l1 ++ l2)
        = intercalateChar sep l1 ++ sep :: intercalateChar sep l2 := by
  intro l1
  induction l1 with
  | nil => intro h1 _; exact absurd rfl h1
  | cons s rest ih =>
    intro _ h2
    cases rest with
    | nil =>
      cases l2 with
      | nil => exact absurd rfl h2
      | cons t l2r => rfl
    | cons s2 r2 =>
      have hr : intercalateChar sep ((s2 :: r2) ++ l2)
          = intercalateChar sep (s2 :: r2) ++ sep :: intercalateChar sep l2 :=
        ih (by simp) h2
      show s ++ sep :: intercalateChar sep ((s2 :: r2) ++ l2) = _
      rw [hr]
      show _ = (s ++ sep :: intercalateChar sep (s2 :: r2)) ++ sep :: intercalateChar sep l2
      simp

theorem map_part_map_mk (qs : List (List Char)) :
    (qs.map (fun nm => (⟨nm, Bool.false⟩ : AddressPart))).map AddressPart.part = qs := by
  induction qs with
  | nil => rfl
  | cons a t iht => rw [List.map_cons, List.map_cons, iht]

theorem parts_to_pattern_eq (p0 : AddressPart) (rest : List AddressPart) :
    parts_to_pattern (p0 :: rest)
      = some (if p0.is_root
          then '/' :: intercalateChar '/' ((p0 :: rest).map AddressPart.part)
          else intercalateChar '/' ((p0 :: rest).map AddressPart.part)) := by
  rw [parts_to_pattern]
  cases rest with
  | nil => rfl
  | cons r1 r2 => rfl

theorem parts_to_pattern_append (p0 : AddressPart) (rest : List AddressPart)
    (qs : List (List Char)) (hqs : qs ≠ []) :
    parts_to_pattern ((p0 :: rest) ++ qs.map (fun nm => (⟨nm, Bool.false⟩ : AddressPart)))
      = (parts_to_pattern (p0 :: rest)).map
          (fun pat => pat ++ '/' :: intercalateChar '/' qs) := by
  show parts_to_pattern (p0 :: (rest ++ _)) = _
  rw [parts_to_pattern_eq, parts_to_pattern_eq]
  simp only [Option.map_some']
  have hmap : (p0 :: (rest ++ qs.map (fun nm => (⟨nm, Bool.false⟩ : AddressPart)))).map AddressPart.part
      = (p0 :: rest).map AddressPart.part ++ qs := by
    rw [List.map_cons, List.map_append, map_part_map_mk, List.map_cons, List.cons_append]
  rw [hmap, intercalateChar_append '/' qs ((p0 :: rest).map AddressPart.part) (by simp) hqs]
  cases hroot : p0.is_root <;> simp

theorem extendAddr_parts (names : List (List Char)) :
    ∀ a : Address, names ≠ [] →
      extendAddr a names
        = Address.from_parts
            (a.parts ++ names.map (fun nm => (⟨nm, Bool.false⟩ : AddressPart))) := by
  induction names with
  | nil => intro a h; exact absurd rfl h
  | cons nm rest ih =>
    intro a _
    cases rest with
    | nil => rfl
    | cons nm2 r2 =>
      rw [extendAddr, ih _ (by simp), from_parts_parts]
      congr 1
      simp

theorem chainAddr_along (rp : List Nat) :
    ∀ (m : NodeT) (ancs : List NodeT) (B : Address),
      clearedAlong m rp = Bool.true →
      namesOkAlong m rp = Bool.true →
      chainAddr m ancs = some B →
      ∀ tgt sp, nodeAtPath m rp = some tgt → spineTo m rp = some sp →
        chainAddr tgt (sp ++ ancs) = some (extendAddr B (pathNames m rp)) := by
  induction rp with
  | nil =>
    intro m ancs B _ _ hB tgt sp htgt hsp
    have hmt : m = tgt := by simpa [nodeAtPath] using htgt
    have hse : sp = [] := by simpa [spineTo] using hsp.symm
    subst hmt
    subst hse
    simpa [pathNames, extendAddr] using hB
  | cons i rest ih =>
    intro m ancs B hcl hnm hB tgt sp htgt hsp
    cases hc : m.children.get? i with
    | none =>
      simp only [nodeAtPath, hc] at htgt
      exact Option.noConfusion htgt
    | some c0 =>
      simp only [nodeAtPath, hc] at htgt
      simp only [spineTo, hc] at hsp
      cases hs0 : spineTo c0 rest with
      | none => rw [hs0] at hsp; simp at hsp
      | some sp0 =>
        rw [hs0] at hsp
        simp only [Option.map_some'] at hsp
        have hspe : sp = sp0 ++ [m] := by
          cases hsp
          rfl
        subst hspe
        rw [clearedAlong, Bool.and_eq_true] at hcl
        rw [hc] at hcl
        rw [namesOkAlong, Bool.and_eq_true] at hnm
        rw [hc] at hnm
        obtain ⟨hclh, hclr⟩ := hcl
        obtain ⟨hnmh, hnmr⟩ := hnm
        have hc0cl : c0.cached = Option.none := clearedAlong_head c0 rest hclr
        have hc0nm : nameOk c0.name = Bool.true := namesOkAlong_head c0 rest hnmr
        have hchild : chainAddr c0 (m :: ancs)
            = some (Address.from_parts (B.parts ++ [⟨c0.name, Bool.false⟩])) := by
          rw [chainAddr, hc0cl]
          show (match chainAddr m ancs with
                | some pa => Address.join pa c0.name
                | Option.none => Option.none) = _
          rw [hB]
          exact join_single B c0.name hc0nm
        have hres := ih c0 (m :: ancs) _ hclr hnmr hchild tgt sp0 htgt hs0
        rw [List.append_assoc]
        show chainAddr tgt (sp0 ++ (m :: ancs)) = _
        rw [hres]
        rw [pathNames]
        rw [hc]
        rfl

/-- C8: re-parenting a subtree preserves the descendants' relative
addresses.  `setParentOp` models `bar.parent = baz`: it appends `bar` to
`baz`'s children and runs `_reset_memoized_attrs` over `bar`'s subtree.
For every node reachable from `bar` at relative path `rp`, its `address`
in the new tree (computed by `chainAddr` along its new ancestor chain) is
`baz`'s address extended by `bar`'s name and the names along `rp`; its
pattern string is `baz`'s pattern followed by the slash-joined names
(e.g. `last.address == "/baz/bar/last"`). -/
theorem claim_C8 (baz bar : NodeT) (bazAncs : List NodeT) (bazNew : NodeT)
    (A : Address) (rp : List Nat) (tgt : NodeT) (sp : List NodeT)
    (hop : setParentOp baz bar = some bazNew)
    (hA : chainAddr baz bazAncs = some A)
    (hA2 : parts_to_pattern A.parts = some A.pattern)
    (hnames : namesOkAlong bar rp = Bool.true)
    (htgt : nodeAtPath bar rp = some tgt)
    (hsp : spineTo bar rp = some sp) :
    chainAddr (resetMemo tgt) (sp.map resetMemo ++ bazNew :: bazAncs)
      = some (extendAddr A (bar.name :: pathNames bar rp))
    ∧ (extendAddr A (bar.name :: pathNames bar rp)).pattern
      = A.pattern ++ '/' :: intercalateChar '/' (bar.name :: pathNames bar rp) := by
  have hbazNew : bazNew = ⟨baz.name, baz.cached, baz.children ++ [resetMemo bar]⟩ := by
    rw [setParentOp] at hop
    by_cases hcc : ((baz.children.map NodeT.name).contains bar.name) = Bool.true
    · rw [if_pos hcc] at hop
      exact Option.noConfusion hop
    · rw [if_neg hcc] at hop
      exact (Option.some.inj hop).symm
  subst hbazNew
  have hAnew : chainAddr ⟨baz.name, baz.cached, baz.children ++ [resetMemo bar]⟩ bazAncs
      = some A := by
    cases baz with
    | mk nm c ch =>
      exact (chainAddr_congr nm c (ch ++ [resetMemo bar]) ch bazAncs).trans hA
  have hnameb : nameOk bar.name = Bool.true := namesOkAlong_head bar rp hnames
  have hbase : chainAddr (resetMemo bar)
      (⟨baz.name, baz.cached, baz.children ++ [resetMemo bar]⟩ :: bazAncs)
      = some (Address.from_parts (A.parts ++ [⟨bar.name, Bool.false⟩])) := by
    rw [chainAddr, resetMemo_cached]
    show (match chainAddr ⟨baz.name, baz.cached, baz.children ++ [resetMemo bar]⟩ bazAncs with
          | some pa => Address.join pa (resetMemo bar).name
          | Option.none => Option.none) = _
    rw [hAnew, resetMemo_name]
    exact join_single A bar.name hnameb
  have hmain := chainAddr_along rp (resetMemo bar)
      (⟨baz.name, baz.cached, baz.children ++ [resetMemo bar]⟩ :: bazAncs) _
      (clearedAlong_resetMemo rp bar)
      (by rw [namesOkAlong_resetMemo rp bar]; exact hnames)
      hbase
      (resetMemo tgt) (sp.map resetMemo)
      (by rw [nodeAtPath_resetMemo rp bar, htgt]; rfl)
      (by rw [spineTo_resetMemo rp bar, hsp]; rfl)
  rw [pathNames_resetMemo rp bar] at hmain
  constructor
  · rw [hmain]
    rfl
  · have hnn : (bar.name :: pathNames bar rp) ≠ [] := by simp
    rw [extendAddr_parts (bar.name :: pathNames bar rp) A hnn]
    cases hap : A.parts with
    | nil =>
      rw [hap] at hA2
      exact Option.noConfusion hA2
    | cons q0 qrest =>
      have happ := parts_to_pattern_append q0 qrest (bar.name :: pathNames bar rp) hnn
      rw [hap] at hA2
      rw [hA2] at happ
      simp only [Option.map_some'] at happ
      exact from_parts_pattern_of_some _ _ happ

theorem claim_C8_witness :
    chainAddr (resetMemo lastW) ([resetMemo barW] ++ bazNewW :: [])
        = some (extendAddr (Address.ofPattern ['/', 'b', 'a', 'z'])
            (['b', 'a', 'r'] :: pathNames barW [0]))
    ∧ (extendAddr (Address.ofPattern ['/', 'b', 'a', 'z'])
          (['b', 'a', 'r'] :: pathNames barW [0])).pattern
        = (Address.ofPattern ['/', 'b', 'a', 'z']).pattern
            ++ '/' :: intercalateChar '/' (['b', 'a', 'r'] :: pathNames barW [0]) :=
  claim_C8 bazW barW [] bazNewW (Address.ofPattern ['/', 'b', 'a', 'z']) [0] lastW [barW]
    (by rfl) (by rfl) (by rfl) (by rfl) (by rfl) (by rfl)

end Oscpython
